import Mathlib

/-!
Verification of the vector-merkle-tree library (`src/lib.rs`).

The Rust code is shallowly embedded: bytes are `Nat`, byte buffers are
`List Nat`, and the pluggable `ring::digest::Algorithm` becomes a structure
holding the digest length `output_len` together with the digest function
itself (the hash primitive is a pluggable collaborator of the library, so it
is kept abstract; `Algorithm.WF` records the contract the library relies on:
a positive, fixed output length).  Rust slice indexing that can panic is
modelled with `Option` (`none` = panic) where a claim depends on it
(`MerkleTree.validate` / `MerkleTree.get_slice`); everywhere else the source
only ever slices in bounds, which the development proves as it goes.
-/

namespace VMT

/-- Model of `ring::digest::Algorithm`: a fixed-output-length digest
function with its output length. -/
structure Algorithm where
  output_len : Nat
  hash : List Nat → List Nat

/-- The contract the library assumes of the digest algorithm: the output
length is positive and every digest has exactly that length. -/
def Algorithm.WF (algo : Algorithm) : Prop :=
  0 < algo.output_len ∧ ∀ x, (algo.hash x).length = algo.output_len

/-- `get_hash` (lib.rs 213-217): one digest of the algorithm over `x`. -/
def get_hash (x : List Nat) (algo : Algorithm) : List Nat :=
  algo.hash x

/-- Rust subslice `&v[a..b]`, total version (used only where the source
indexes in bounds). -/
def slice (v : List Nat) (a b : Nat) : List Nat :=
  (v.drop a).take (b - a)

/-- The comparison loop of `get_pair_hash` (lib.rs 198-206): scan positions
`i, i+1, ...` (`fuel` positions in total) and report whether the operands
must be swapped, i.e. whether at the first differing position the left
byte is greater.  Rust's `left[i]` is in bounds whenever the operands have
the algorithm's output length; `getD` is the totalisation. -/
def pair_swap_loop (left right : List Nat) : Nat → Nat → Bool
  | _, 0 => false
  | i, fuel+1 =>
    if right.getD i 0 < left.getD i 0 then true
    else if left.getD i 0 < right.getD i 0 then false
    else pair_swap_loop left right (i+1) fuel

/-- `get_pair_hash` (lib.rs 195-211): sort the two digests (lexicographic
byte-by-byte comparison over `output_len` positions), then hash their
concatenation. -/
def get_pair_hash (x y : List Nat) (algo : Algorithm) : List Nat :=
  if pair_swap_loop x y 0 algo.output_len then algo.hash (y ++ x)
  else algo.hash (x ++ y)

/-- `calculate_relatives` (lib.rs 129-138): sibling and parent position of
the node at position `index` within its level. -/
def calculate_relatives (index : Nat) : Nat × Nat :=
  let sibling := if index % 2 = 0 then index + 1 else index - 1
  let parent := (index + 1 + ((index + 1) % 2)) / 2 - 1
  (sibling, parent)

/-- Insertion into the lookup map, modelling `HashMap::insert`: an existing
binding of the same key is overwritten. -/
def map_insert (m : List (List Nat × Nat)) (k : List Nat) (v : Nat) :
    List (List Nat × Nat) :=
  match m with
  | [] => [(k, v)]
  | (k', v') :: rest =>
    if k' = k then (k, v) :: rest else (k', v') :: map_insert rest k v

/-- Lookup in the map, modelling `HashMap::get`. -/
def map_get (m : List (List Nat × Nat)) (k : List Nat) : Option Nat :=
  match m with
  | [] => none
  | (k', v') :: rest => if k' = k then some v' else map_get rest k

/-- The leaf-hashing loop of `build_tree` (lib.rs 144-152): hash each value,
append the digest to the flat array and, when the map accumulator is
present, insert `(digest, position)` into it (`i` is the position of the
next value). -/
def build_leaves (algo : Algorithm) :
    List (List Nat) → Nat → List Nat → Option (List (List Nat × Nat)) →
    List Nat × Option (List (List Nat × Nat))
  | [], _, tree, m => (tree, m)
  | v :: rest, i, tree, m =>
    let hash := get_hash v algo
    build_leaves algo rest (i + 1) (tree ++ hash)
      (match m with
       | some mm => some (map_insert mm hash i)
       | none => none)

/-- The pair-hashing `for` loop of `build_level` (lib.rs 176-185): iteration
`i` reads the two chunks at byte offsets `prev_level_start*L + 2*i*L` and
appends their pair hash; `build_hashes ... n` performs iterations
`0, ..., n-1` in order on the growing array. -/
def build_hashes (algo : Algorithm) (prev_level_start : Nat) :
    List Nat → Nat → List Nat
  | tree, 0 => tree
  | tree, i+1 =>
    let tree' := build_hashes algo prev_level_start tree i
    let first := prev_level_start * algo.output_len + i * 2 * algo.output_len
    let middle := first + algo.output_len
    let last := middle + algo.output_len
    tree' ++ get_pair_hash (slice tree' first middle) (slice tree' middle last) algo

/-- `build_level` (lib.rs 168-193).  The previous level occupies chunk
positions `[prev_level_start, prev_level_start + prev_level_len)` at the end
of the array; duplicate the last chunk when the level is odd (the Rust slice
`&tree[... ..]` runs to the end of the vector, i.e. is exactly the last
chunk), hash adjacent pairs into the next level, recurse until a level of
one node.  Returns the extended array together with the height. -/
def build_level (tree : List Nat) (prev_level_start prev_level_len : Nat)
    (algo : Algorithm) : List Nat × Nat :=
  let pad := prev_level_len % 2
  let tree1 :=
    if pad = 1 then
      tree ++ tree.drop (prev_level_start * algo.output_len +
        (prev_level_len - 1) * algo.output_len)
    else tree
  let len1 := prev_level_len + pad
  let level_len := len1 / 2
  let tree2 := build_hashes algo prev_level_start tree1 level_len
  if h : 1 < level_len then
    let r := build_level tree2 (prev_level_start + len1) level_len algo
    (r.1, r.2 + 1)
  else if 0 < level_len then (tree2, 2)
  else (tree2, 0)
termination_by prev_level_len
decreasing_by omega

/-- `build_tree` (lib.rs 140-155).  (`calculate_vec_len` only preallocates
capacity in the source and has no observable effect, so it is not
modelled.) -/
def build_tree (values : List (List Nat)) (algo : Algorithm) (use_map : Bool) :
    Nat × List Nat × Option (List (List Nat × Nat)) :=
  let m0 : Option (List (List Nat × Nat)) := if use_map then some [] else none
  let lm := build_leaves algo values 0 [] m0
  let r := build_level lm.1 0 values.length algo
  (r.2, r.1, lm.2)

/-- The `MerkleTree` structure (lib.rs 10-16). -/
structure MerkleTree where
  array : List Nat
  height : Nat
  items_count : Nat
  map : Option (List (List Nat × Nat))
  algo : Algorithm

namespace MerkleTree

/-- `MerkleTree::new_with_flag` (lib.rs 27-36). -/
def new_with_flag (values : List (List Nat)) (algo : Algorithm)
    (use_map : Bool) : MerkleTree :=
  let r := build_tree values algo use_map
  { array := r.2.1
    height := r.1
    items_count := values.length
    map := r.2.2
    algo := algo }

/-- `MerkleTree::new` (lib.rs 19-21). -/
def new (values : List (List Nat)) (algo : Algorithm) : MerkleTree :=
  new_with_flag values algo false

/-- `MerkleTree::new_with_map` (lib.rs 23-25). -/
def new_with_map (values : List (List Nat)) (algo : Algorithm) : MerkleTree :=
  new_with_flag values algo true

/-- The linear-scan arm of `find_item` (lib.rs 61-71): the first index in
`[index, items_count)` whose leaf chunk equals `hash`. -/
def find_item_from (t : MerkleTree) (hash : List Nat) (index : Nat) :
    Option Nat :=
  if index < t.items_count then
    if hash = slice t.array (index * t.algo.output_len)
        (index * t.algo.output_len + t.algo.output_len)
    then some index
    else find_item_from t hash (index + 1)
  else none
termination_by t.items_count - index

/-- `find_item` (lib.rs 51-73). -/
def find_item (t : MerkleTree) (hash : List Nat) : Option Nat :=
  match t.map with
  | some m => map_get m hash
  | none => find_item_from t hash 0

/-- `add_level` (lib.rs 75-86): walk one level, appending the sibling chunk
to the result, then recurse on the parent position in the next level;
stop before the root level.  (When `level_len = 0` the source never returns
— it would panic slicing an empty level — but `add_level` is only ever
called with `level_len = items_count ≥ 1`, the guard below keeps the model
total on that unreachable input.) -/
def add_level (t : MerkleTree) (start_index index level_len : Nat)
    (result : List Nat) : List Nat :=
  if level_len = 0 then result
  else
    let len1 := level_len + level_len % 2
    let rel := calculate_relatives index
    let result1 := result ++ slice t.array
      (start_index + rel.1 * t.algo.output_len)
      (start_index + rel.1 * t.algo.output_len + t.algo.output_len)
    let next_level_len := len1 / 2
    if next_level_len = 1 then result1
    else add_level t (start_index + len1 * t.algo.output_len) rel.2
      next_level_len result1
termination_by level_len
decreasing_by omega

/-- `build_proof` (lib.rs 38-49): hash the value, locate its leaf, seed the
proof with the leaf chunk and collect the sibling chunks. -/
def build_proof (t : MerkleTree) (value : List Nat) : Option (List Nat) :=
  let hash := get_hash value t.algo
  match t.find_item hash with
  | some i =>
    let v := slice t.array (i * t.algo.output_len)
      (i * t.algo.output_len + t.algo.output_len)
    some (t.add_level 0 i t.items_count v)
  | none => none

/-- `nodes_count` (lib.rs 100-102). -/
def nodes_count (t : MerkleTree) : Nat :=
  t.array.length / t.algo.output_len

/-- `is_empty` (lib.rs 88-90). -/
def is_empty (t : MerkleTree) : Bool :=
  t.nodes_count = 0

/-- `get_root` (lib.rs 92-98): the last `output_len` bytes, or empty. -/
def get_root (t : MerkleTree) : List Nat :=
  if t.is_empty then []
  else t.array.drop (t.array.length - t.algo.output_len)

/-- `leafs_count` (lib.rs 104-106). -/
def leafs_count (t : MerkleTree) : Nat :=
  t.items_count

/-- `data_size` (lib.rs 108-110). -/
def data_size (t : MerkleTree) : Nat :=
  t.array.length

/-- `get_slice` (lib.rs 124-126): `&vec[i*L .. i*L+L]`, `none` when Rust
would panic (end of range past the end of the buffer). -/
def get_slice (t : MerkleTree) (vec : List Nat) (i : Nat) : Option (List Nat) :=
  if i * t.algo.output_len + t.algo.output_len ≤ vec.length then
    some (slice vec (i * t.algo.output_len)
      (i * t.algo.output_len + t.algo.output_len))
  else none

/-- The `for` loop of `validate` (lib.rs 118-120): fold the pair hash over
chunks `i, i+1, ..., proof.len()/L - 1`. -/
def validate_loop (t : MerkleTree) (proof : List Nat) (hash : List Nat)
    (i : Nat) : Option (List Nat) :=
  if i < proof.length / t.algo.output_len then
    match t.get_slice proof i with
    | some s => validate_loop t proof (get_pair_hash hash s t.algo) (i + 1)
    | none => none
  else some hash
termination_by proof.length / t.algo.output_len - i

/-- `validate` (lib.rs 116-122): recompute the root from the proof and
compare with the stored root; `none` models the panic Rust raises when the
proof is shorter than two chunks. -/
def validate (t : MerkleTree) (proof : List Nat) : Option Bool :=
  match t.get_slice proof 0 with
  | none => none
  | some s0 =>
    match t.get_slice proof 1 with
    | none => none
    | some s1 =>
      match t.validate_loop proof (get_pair_hash s0 s1 t.algo) 2 with
      | none => none
      | some h => some (h == t.get_root)

end MerkleTree

/-- Every element of `cs` has length `L`. -/
def Chunks (L : Nat) (cs : List (List Nat)) : Prop :=
  ∀ c ∈ cs, c.length = L

/-- One pair-hashing pass over a level, at the level of whole chunks: the
chunk-level counterpart of the `for` loop of `build_level`. -/
def hash_level (algo : Algorithm) : List (List Nat) → List (List Nat)
  | a :: b :: rest => get_pair_hash a b algo :: hash_level algo rest
  | _ => []

/-- The part of the digest array lying above a given level, together with
the height contributed from that level up: chunk-level counterpart of
`build_level`.  `upperH algo lv = (chunks appended above level lv, height)`. -/
def upperH (algo : Algorithm) (lv : List (List Nat)) : List (List Nat) × Nat :=
  let extra := if lv.length % 2 = 1 then [lv.getLastD []] else []
  let next := hash_level algo (lv ++ extra)
  if h : 1 < next.length then
    (extra ++ next ++ (upperH algo next).1, (upperH algo next).2 + 1)
  else if 0 < next.length then (extra ++ next, 2)
  else ([], 0)
termination_by lv.length
decreasing_by
  all_goals
    unfold_let next at h ⊢
    have key : ∀ (k : Nat) (l : List (List Nat)), l.length ≤ k →
        (hash_level algo l).length = l.length / 2 := by
      intro k
      induction k with
      | zero =>
        intro l hl
        have hnil : l = [] := List.length_eq_zero.1 (by omega)
        subst hnil
        simp [hash_level]
      | succ k ihk =>
        intro l hl
        cases l with
        | nil => simp [hash_level]
        | cons a l2 =>
          cases l2 with
          | nil => simp [hash_level]
          | cons b rest =>
            have hr := ihk rest (by simp at hl ⊢; omega)
            simp only [hash_level, List.length_cons, hr]
            omega
    have hlen2 : extra.length = lv.length % 2 := by
      unfold_let extra
      split_ifs with hp <;> simp [hp]
      omega
    rw [key (lv ++ extra).length (lv ++ extra) le_rfl] at h ⊢
    simp only [List.length_append, hlen2] at h ⊢
    omega

/-- The lookup map built by the leaf pass, in isolation. -/
def leaf_map (algo : Algorithm) :
    List (List Nat) → Nat → List (List Nat × Nat) → List (List Nat × Nat)
  | [], _, m => m
  | v :: rest, i, m => leaf_map algo rest (i + 1) (map_insert m (get_hash v algo) i)

/-- Leaf digests of an input list. -/
def leaf_hashes (values : List (List Nat)) (algo : Algorithm) : List (List Nat) :=
  values.map (fun v => get_hash v algo)

/-- The fold `validate` performs over the proof chunks: starting from a
running digest, absorb each chunk with `get_pair_hash`. -/
def fold_hashes (algo : Algorithm) : List Nat -> List (List Nat) -> List Nat
  | h, [] => h
  | h, c :: rest => fold_hashes algo (get_pair_hash h c algo) rest

/-- A tiny concrete digest algorithm used to instantiate the theorems on
concrete inputs: one-byte output, a simple polynomial fold. -/
def toyAlgo : Algorithm :=
  { output_len := 1
    hash := fun x => [x.foldl (fun a b => (a * 31 + b + 7) % 1009) 3] }

/-! ### Commutativity of `get_pair_hash` -/

theorem pair_swap_loop_asymm (x y : List Nat) :
    ∀ fuel i, pair_swap_loop x y i fuel = true →
      pair_swap_loop y x i fuel = false := by
  intro fuel
  induction fuel with
  | zero => intro i h; simp [pair_swap_loop] at h
  | succ f ih =>
    intro i h
    rw [pair_swap_loop] at h ⊢
    by_cases h1 : y.getD i 0 < x.getD i 0
    · rw [if_neg (Nat.lt_asymm h1), if_pos h1]
    · rw [if_neg h1] at h
      by_cases h2 : x.getD i 0 < y.getD i 0
      · rw [if_pos h2] at h; exact absurd h (by simp)
      · rw [if_neg h2] at h
        rw [if_neg h2, if_neg h1]
        exact ih _ h

theorem pair_swap_loop_eq (x y : List Nat) :
    ∀ fuel i, pair_swap_loop x y i fuel = false →
      pair_swap_loop y x i fuel = false →
      ∀ j, j < fuel → x.getD (i + j) 0 = y.getD (i + j) 0 := by
  intro fuel
  induction fuel with
  | zero => intro i _ _ j hj; omega
  | succ f ih =>
    intro i hxy hyx j hj
    rw [pair_swap_loop] at hxy hyx
    by_cases h1 : y.getD i 0 < x.getD i 0
    · rw [if_pos h1] at hxy; exact absurd hxy (by simp)
    · rw [if_neg h1] at hxy
      by_cases h2 : x.getD i 0 < y.getD i 0
      · rw [if_pos h2] at hyx; exact absurd hyx (by simp)
      · rw [if_neg h2] at hxy hyx
        rw [if_neg h1] at hyx
        rcases Nat.eq_zero_or_pos j with hj0 | hj0
        · subst hj0
          simpa using Nat.le_antisymm (Nat.not_lt.1 h1) (Nat.not_lt.1 h2)
        · have := ih (i + 1) hxy hyx (j - 1) (by omega)
          have harith : i + 1 + (j - 1) = i + j := by omega
          rwa [harith] at this

theorem get_pair_hash_comm (algo : Algorithm) (x y : List Nat)
    (hx : x.length = algo.output_len) (hy : y.length = algo.output_len) :
    get_pair_hash x y algo = get_pair_hash y x algo := by
  unfold get_pair_hash
  cases hxy : pair_swap_loop x y 0 algo.output_len with
  | true => simp [pair_swap_loop_asymm x y _ _ hxy]
  | false =>
    cases hyx : pair_swap_loop y x 0 algo.output_len with
    | true => simp
    | false =>
      have heq : x = y := by
        apply List.ext_getElem (by omega)
        intro i h1 h2
        have := pair_swap_loop_eq x y _ 0 hxy hyx i (by omega)
        rwa [Nat.zero_add, List.getD_eq_getElem _ _ h1,
          List.getD_eq_getElem _ _ h2] at this
      simp [heq]

/-! ### Index arithmetic -/

theorem calculate_relatives_eq (i : Nat) :
    calculate_relatives i = (i ^^^ 1, i / 2) := by
  unfold calculate_relatives
  simp only [Prod.mk.injEq]
  rcases Nat.even_or_odd i with ⟨k, hk⟩ | ⟨k, hk⟩
  · subst hk
    have hx : (k + k) ^^^ 1 = k + k + 1 := by
      have h := Nat.xor_bit false k true 0
      simp only [Nat.bit, cond_false, cond_true] at h
      simpa [Nat.two_mul] using h
    rw [if_pos (by omega : (k + k) % 2 = 0), hx]
    omega
  · subst hk
    have hx : (2 * k + 1) ^^^ 1 = 2 * k := by
      have h := Nat.xor_bit true k true 0
      simpa [Nat.bit] using h
    rw [if_neg (by omega : ¬ (2 * k + 1) % 2 = 0), hx]
    omega

/-! ### Chunk infrastructure: flat byte arrays as concatenations of
fixed-length digest chunks -/


theorem chunks_nil (L : Nat) : Chunks L [] := by
  intro c hc; simp at hc

theorem chunks_append {L : Nat} {a b : List (List Nat)} (ha : Chunks L a)
    (hb : Chunks L b) : Chunks L (a ++ b) := by
  intro c hc
  rcases List.mem_append.1 hc with h | h
  · exact ha c h
  · exact hb c h

theorem chunks_append_iff {L : Nat} {a b : List (List Nat)} :
    Chunks L (a ++ b) ↔ Chunks L a ∧ Chunks L b := by
  constructor
  · intro h
    exact ⟨fun c hc => h c (List.mem_append.2 (Or.inl hc)),
      fun c hc => h c (List.mem_append.2 (Or.inr hc))⟩
  · rintro ⟨ha, hb⟩; exact chunks_append ha hb

theorem flatten_length_chunks {L : Nat} {cs : List (List Nat)}
    (h : Chunks L cs) : cs.flatten.length = cs.length * L := by
  induction cs with
  | nil => simp
  | cons c rest ih =>
    have hc := h c (by simp)
    have hrest : Chunks L rest := fun d hd => h d (by simp [hd])
    simp [ih hrest, hc, Nat.succ_mul, Nat.add_comm]

theorem flatten_drop_chunks {L : Nat} {cs : List (List Nat)} (h : Chunks L cs) :
    ∀ i, cs.flatten.drop (i * L) = (cs.drop i).flatten := by
  intro i
  induction i generalizing cs with
  | zero => simp
  | succ n ih =>
    cases cs with
    | nil => simp
    | cons c rest =>
      have hc := h c (by simp)
      have hrest : Chunks L rest := fun d hd => h d (by simp [hd])
      have harith : (n + 1) * L = c.length + n * L := by rw [hc]; ring
      simp only [List.flatten_cons, harith, List.drop_append_eq_append_drop]
      simp [ih hrest]

theorem slice_flatten_chunk {L : Nat} {cs : List (List Nat)} (h : Chunks L cs)
    {i : Nat} (hi : i < cs.length) :
    slice cs.flatten (i * L) (i * L + L) = cs.getD i [] := by
  unfold slice
  rw [flatten_drop_chunks h i]
  have hlt : 0 < (cs.drop i).length := by simp; omega
  obtain ⟨c, rest, hcr⟩ : ∃ c rest, cs.drop i = c :: rest := by
    cases hd : cs.drop i with
    | nil => rw [hd] at hlt; simp at hlt
    | cons c rest => exact ⟨c, rest, rfl⟩
  have hc : c.length = L := h c (by
    have : c ∈ cs.drop i := by rw [hcr]; simp
    exact List.mem_of_mem_drop this)
  have hgd : cs.getD i [] = c := by
    have : cs.getD i [] = (cs.drop i).getD 0 [] := by
      rw [List.getD_eq_getElem _ _ hi, List.getD_eq_getElem _ _ hlt]
      simp
    rw [this, hcr]; rfl
  rw [hcr, hgd]
  simp only [List.flatten_cons, Nat.add_sub_cancel_left]
  rw [← hc, List.take_left]

theorem getLastD_irrel {α : Type} {l : List α} (h : l ≠ []) (a b : α) :
    l.getLastD a = l.getLastD b := by
  cases l with
  | nil => exact absurd rfl h
  | cons c rest => rfl

theorem flatten_last_chunk {L : Nat} :
    ∀ cs : List (List Nat), Chunks L cs → cs ≠ [] →
      cs.flatten.drop (cs.flatten.length - L) = cs.getLastD []
  | [], _, hne => absurd rfl hne
  | [c], h, _ => by
    have hc := h c (by simp)
    simp [hc]
  | c :: d :: rest, h, _ => by
    have hc := h c (by simp)
    have htail : Chunks L (d :: rest) := fun e he => h e (by simp [he])
    have ih := flatten_last_chunk (d :: rest) htail (by simp)
    have hlen : (d :: rest).flatten.length = (d :: rest).length * L :=
      flatten_length_chunks htail
    have hge : L ≤ (d :: rest).flatten.length := by
      rw [hlen]; simp [Nat.succ_mul]
    have hdecomp : (c :: d :: rest).flatten = c ++ (d :: rest).flatten := by simp
    rw [hdecomp, List.length_append, List.drop_append_eq_append_drop]
    have h1 : c.drop (c.length + (d :: rest).flatten.length - L) = [] := by
      apply List.drop_eq_nil_of_le; omega
    have h2 : c.length + (d :: rest).flatten.length - L - c.length
        = (d :: rest).flatten.length - L := by omega
    rw [h1, h2, List.nil_append, ih]
    exact (getLastD_irrel (l := d :: rest) (by simp) [] c).symm

/-! ### Chunk-level view of tree building -/

theorem get_pair_hash_length {algo : Algorithm} (hWF : algo.WF) (x y : List Nat) :
    (get_pair_hash x y algo).length = algo.output_len := by
  unfold get_pair_hash
  split <;> exact hWF.2 _


theorem hash_level_length (algo : Algorithm) :
    ∀ l : List (List Nat), (hash_level algo l).length = l.length / 2
  | [] => by simp [hash_level]
  | [a] => by simp [hash_level]
  | a :: b :: rest => by
    have := hash_level_length algo rest
    simp [hash_level, this]
    omega

theorem hash_level_getD (algo : Algorithm) :
    ∀ (l : List (List Nat)) (k : Nat), 2 * k + 1 < l.length →
      (hash_level algo l).getD k [] =
        get_pair_hash (l.getD (2 * k) []) (l.getD (2 * k + 1) []) algo
  | [], k, h => by simp at h
  | [a], k, h => by simp at h
  | a :: b :: rest, 0, _ => by simp [hash_level]
  | a :: b :: rest, k + 1, h => by
    have hrest := hash_level_getD algo rest k (by simp at h; omega)
    have h1 : 2 * (k + 1) = 2 * k + 1 + 1 := by omega
    rw [h1]
    simpa [hash_level, List.getD_cons_succ] using hrest

theorem hash_level_chunks (algo : Algorithm) (hWF : algo.WF) :
    ∀ l : List (List Nat), Chunks algo.output_len (hash_level algo l)
  | [] => chunks_nil _
  | [a] => chunks_nil _
  | a :: b :: rest => by
    intro c hc
    simp only [hash_level, List.mem_cons] at hc
    rcases hc with rfl | hc
    · exact get_pair_hash_length hWF a b
    · exact hash_level_chunks algo hWF rest c hc

theorem getLastD_mem {α : Type} :
    ∀ {l : List α}, l ≠ [] → ∀ d, l.getLastD d ∈ l
  | [], h, _ => absurd rfl h
  | [a], _, d => by simp
  | a :: b :: rest, _, d => by
    have := getLastD_mem (l := b :: rest) (by simp) a
    simpa using Or.inr this


theorem getD_append_left {α : Type} (a b : List α) (d : α) {i : Nat}
    (h : i < a.length) : (a ++ b).getD i d = a.getD i d := by
  rw [List.getD_eq_getElem _ _ (by simp; omega), List.getD_eq_getElem _ _ h]
  exact List.getElem_append_left h

theorem getD_append_right {α : Type} (a b : List α) (d : α) {i : Nat}
    (h1 : a.length ≤ i) (h2 : i - a.length < b.length) :
    (a ++ b).getD i d = b.getD (i - a.length) d := by
  rw [List.getD_eq_getElem _ _ (by simp; omega), List.getD_eq_getElem _ _ h2]
  simp [List.getElem_append_right h1]

theorem drop_length_sub_one {α : Type} (d : α) :
    ∀ l : List α, l ≠ [] → l.drop (l.length - 1) = [l.getLastD d]
  | [], h => absurd rfl h
  | [a], _ => by simp
  | a :: b :: rest, _ => by
    have h1 := drop_length_sub_one d (b :: rest) (by simp)
    have h2 := getLastD_irrel (l := b :: rest) (by simp) d a
    simp only [List.length_cons, Nat.add_sub_cancel] at h1 ⊢
    have hd : (a :: b :: rest).drop (rest.length + 1) = (b :: rest).drop rest.length := by
      simp [List.drop_succ_cons]
    rw [hd, h1]
    have hg : (a :: b :: rest).getLastD d = (b :: rest).getLastD a := rfl
    rw [hg, ← h2]

/-! ### Correspondence between the flat `build_level` and the chunk-level
`upperH` -/

theorem build_hashes_correspond (algo : Algorithm) (hWF : algo.WF)
    (pre lv1 : List (List Nat)) (hch : Chunks algo.output_len (pre ++ lv1)) :
    ∀ k, 2 * k ≤ lv1.length →
      build_hashes algo pre.length (pre ++ lv1).flatten k
        = ((pre ++ lv1) ++ (hash_level algo lv1).take k).flatten := by
  intro k
  induction k with
  | zero => simp [build_hashes]
  | succ n ih =>
    intro h2k
    have hn := ih (by omega)
    rw [build_hashes, hn]
    set L := algo.output_len with hL
    set H := hash_level algo lv1 with hH
    have hHlen : H.length = lv1.length / 2 := hash_level_length algo lv1
    have hHch : Chunks L H := hash_level_chunks algo hWF lv1
    have hch2 : Chunks L ((pre ++ lv1) ++ H.take n) :=
      chunks_append hch (fun c hc => hHch c (List.mem_of_mem_take hc))
    have hlen2 : pre.length + 2 * n + 1 < ((pre ++ lv1) ++ H.take n).length := by
      simp; omega
    have e1 : pre.length * L + n * 2 * L = (pre.length + 2 * n) * L := by ring
    have e3 : (pre.length + 2 * n) * L + L = (pre.length + 2 * n + 1) * L := by
      ring
    rw [e1,
      slice_flatten_chunk hch2 (i := pre.length + 2 * n) (by simp; omega), e3,
      slice_flatten_chunk hch2 (i := pre.length + 2 * n + 1) (by simp; omega)]
    have hc1 : ((pre ++ lv1) ++ H.take n).getD (pre.length + 2 * n) []
        = lv1.getD (2 * n) [] := by
      rw [getD_append_left _ _ _ (by simp; omega),
        getD_append_right _ _ _ (by omega) (by omega)]
      congr 1; omega
    have hc2 : ((pre ++ lv1) ++ H.take n).getD (pre.length + 2 * n + 1) []
        = lv1.getD (2 * n + 1) [] := by
      rw [getD_append_left _ _ _ (by simp; omega),
        getD_append_right _ _ _ (by omega) (by omega)]
      congr 1; omega
    rw [hc1, hc2, ← hash_level_getD algo lv1 n (by omega), ← hH]
    have htake : H.take (n + 1) = H.take n ++ [H.getD n []] := by
      have hnH : n < H.length := by omega
      rw [List.getD_eq_getElem _ _ hnH]
      exact (List.take_concat_get' H n hnH).symm
    rw [htake]
    simp [List.flatten_append]

theorem build_level_correspond (algo : Algorithm) (hWF : algo.WF) :
    ∀ n lv pre, lv.length = n → Chunks algo.output_len (pre ++ lv) →
      build_level (pre ++ lv).flatten pre.length n algo
        = (((pre ++ lv) ++ (upperH algo lv).1).flatten, (upperH algo lv).2) := by
  intro n
  induction n using Nat.strong_induction_on with
  | _ n ih =>
    intro lv pre hn hch
    rw [build_level, upperH]
    rcases Nat.mod_two_eq_zero_or_one n with hp | hp
    · -- even case: no padding
      have hH := hash_level_length algo lv
      simp only [hn, hp, if_neg (show ¬ ((0:Nat) = 1) by omega),
        Nat.add_zero, List.append_nil, hash_level_length, List.length_append]
      have hHfull : (hash_level algo lv).take (n / 2) = hash_level algo lv := by
        apply List.take_of_length_le
        rw [hH, hn]
      have htree2 := build_hashes_correspond algo hWF pre lv hch (n / 2)
        (by omega)
      rw [hn] at hH
      by_cases hbig : 1 < n / 2
      · rw [dif_pos hbig, dif_pos hbig]
        have hrec := ih (n / 2) (by omega) (hash_level algo lv) (pre ++ lv)
          hH (chunks_append hch (hash_level_chunks algo hWF lv))
        rw [htree2, hHfull]
        have hlen : pre.length + n = ((pre ++ lv) : List (List Nat)).length := by
          simp [hn]
        rw [hlen, hrec]
        simp [List.append_assoc]
      · rw [dif_neg hbig, dif_neg hbig]
        by_cases hpos : 0 < n / 2
        · rw [if_pos hpos, if_pos hpos]
          rw [htree2, hHfull]
          simp [List.append_assoc]
        · rw [if_neg hpos, if_neg hpos]
          rw [htree2]
          have : n / 2 = 0 := by omega
          simp [this]
    · -- odd case: the last chunk is duplicated
      have hne : lv ≠ [] := by
        intro h; rw [h] at hn; simp at hn; omega
      have hdup : ((pre ++ lv).flatten).drop
          (pre.length * algo.output_len + (n - 1) * algo.output_len)
          = lv.getLastD [] := by
        have e1 : pre.length * algo.output_len + (n - 1) * algo.output_len
            = (pre.length + (n - 1)) * algo.output_len := by
          rw [Nat.add_mul]
        rw [e1, flatten_drop_chunks hch]
        rw [List.drop_append (n - 1)]
        have := drop_length_sub_one ([] : List Nat) lv hne
        rw [hn] at this
        rw [this]
        simp
      set lv1 : List (List Nat) := lv ++ [lv.getLastD []] with hlv1
      have hlv1len : lv1.length = n + 1 := by simp [hlv1, hn]
      have hch1 : Chunks algo.output_len (pre ++ lv1) := by
        rw [hlv1, ← List.append_assoc]
        apply chunks_append hch
        intro c hc
        have hc2 := List.mem_singleton.1 hc
        subst hc2
        exact hch _ (List.mem_append.2 (Or.inr (getLastD_mem hne [])))
      have hH := hash_level_length algo lv1
      rw [hlv1len] at hH
      simp only [hn, hp, eq_self_iff_true, if_true,
        hash_level_length, List.length_append, List.length_cons,
        List.length_nil]
      simp only [← hlv1, hH]
      have htree1 : (pre ++ lv).flatten ++ ((pre ++ lv).flatten).drop
          (pre.length * algo.output_len + (n - 1) * algo.output_len)
          = (pre ++ lv1).flatten := by
        rw [hdup, hlv1, ← List.append_assoc, List.flatten_append]
        simp
      rw [htree1]
      have hHfull : (hash_level algo lv1).take ((n + 1) / 2) = hash_level algo lv1 := by
        apply List.take_of_length_le
        rw [hH]
      have htree2 := build_hashes_correspond algo hWF pre lv1 hch1 ((n + 1) / 2)
        (by rw [hlv1len]; omega)
      by_cases hbig : 1 < (n + 1) / 2
      · simp only [dif_pos hbig]
        have hrec := ih ((n + 1) / 2) (by omega) (hash_level algo lv1)
          (pre ++ lv1) hH
          (chunks_append hch1 (hash_level_chunks algo hWF lv1))
        rw [htree2, hHfull]
        have hlen : pre.length + (n + 1) = ((pre ++ lv1) : List (List Nat)).length := by
          simp [hlv1len]
        rw [hlen, hrec]
        simp [hlv1, List.append_assoc]
      · simp only [dif_neg hbig]
        by_cases hpos : 0 < (n + 1) / 2
        · simp only [if_pos hpos]
          rw [htree2, hHfull]
          simp [hlv1, List.append_assoc]
        · omega

theorem chunks_extra {L : Nat} {lv : List (List Nat)} (hlv : Chunks L lv) :
    Chunks L (if lv.length % 2 = 1 then [lv.getLastD []] else []) := by
  split_ifs with h
  · intro c hc
    have hc2 := List.mem_singleton.1 hc
    subst hc2
    apply hlv
    apply getLastD_mem
    intro hnil
    rw [hnil] at h
    simp at h
  · exact chunks_nil L

theorem extra_eq {L : Nat} {lv : List (List Nat)} (hlv : Chunks L lv) :
    ∃ extra, (if lv.length % 2 = 1 then [lv.getLastD []] else []) = extra
      ∧ Chunks L extra ∧ extra.length = lv.length % 2 := by
  refine ⟨_, rfl, chunks_extra hlv, ?_⟩
  split_ifs with h <;> simp [h]
  omega

theorem upperH_chunks (algo : Algorithm) (hWF : algo.WF) :
    ∀ n lv, lv.length = n → Chunks algo.output_len lv →
      Chunks algo.output_len (upperH algo lv).1 := by
  intro n
  induction n using Nat.strong_induction_on with
  | _ n ih =>
    intro lv hn hlv
    rw [upperH]
    obtain ⟨extra, hex, hexch, hexlen⟩ := extra_eq hlv
    rw [hex]
    have hnext := hash_level_length algo (lv ++ extra)
    have hlv1len : (lv ++ extra).length = n + n % 2 := by
      simp [hexlen, hn]
    split
    · rename_i h1
      dsimp only
      rw [hnext, hlv1len] at h1
      refine chunks_append
        (chunks_append hexch (hash_level_chunks algo hWF _)) ?_
      apply ih (hash_level algo (lv ++ extra)).length ?_ _ rfl
        (hash_level_chunks algo hWF _)
      rw [hnext, hlv1len]
      omega
    · split
      · dsimp only
        exact chunks_append hexch (hash_level_chunks algo hWF _)
      · exact chunks_nil _

theorem extra_len (lv : List (List Nat)) :
    ∃ extra, (if lv.length % 2 = 1 then [lv.getLastD []] else []) = extra
      ∧ extra.length = lv.length % 2 := by
  refine ⟨_, rfl, ?_⟩
  split_ifs with h <;> simp [h]
  omega

theorem upperH_height (algo : Algorithm) :
    ∀ n lv, lv.length = n → 1 ≤ n → 2 ≤ (upperH algo lv).2 := by
  intro n
  induction n using Nat.strong_induction_on with
  | _ n ih =>
    intro lv hn hpos
    rw [upperH]
    obtain ⟨extra, hex, hexlen⟩ := extra_len lv
    rw [hex]
    have hnext := hash_level_length algo (lv ++ extra)
    have hlv1len : (lv ++ extra).length = n + n % 2 := by
      simp [hexlen, hn]
    split
    · rename_i h1
      rw [hnext, hlv1len] at h1
      have h2 := ih (hash_level algo (lv ++ extra)).length
        (by rw [hnext, hlv1len]; omega) _ rfl (by rw [hnext, hlv1len]; omega)
      omega
    · split
      · omega
      · rename_i h1 h2
        exfalso
        rw [hnext, hlv1len] at h1 h2
        omega

/-! ### Unfolding `build_tree` into leaf hashes plus `upperH` -/

theorem build_leaves_fst (algo : Algorithm) :
    ∀ (values : List (List Nat)) (i : Nat) (tree : List Nat)
      (m : Option (List (List Nat × Nat))),
      (build_leaves algo values i tree m).1
        = tree ++ (values.map (fun v => get_hash v algo)).flatten
  | [], _, tree, m => by simp [build_leaves]
  | v :: rest, i, tree, m => by
    simp only [build_leaves]
    rw [build_leaves_fst algo rest]
    simp


theorem build_leaves_snd_some (algo : Algorithm) :
    ∀ (values : List (List Nat)) (i : Nat) (tree : List Nat)
      (m : List (List Nat × Nat)),
      (build_leaves algo values i tree (some m)).2
        = some (leaf_map algo values i m)
  | [], _, tree, m => by simp [build_leaves, leaf_map]
  | v :: rest, i, tree, m => by
    simp only [build_leaves, leaf_map]
    rw [build_leaves_snd_some algo rest]

theorem build_leaves_snd_none (algo : Algorithm) :
    ∀ (values : List (List Nat)) (i : Nat) (tree : List Nat),
      (build_leaves algo values i tree none).2 = none
  | [], _, tree => by simp [build_leaves]
  | v :: rest, i, tree => by
    simp only [build_leaves]
    rw [build_leaves_snd_none algo rest]


theorem leaf_hashes_chunks {algo : Algorithm} (hWF : algo.WF)
    (values : List (List Nat)) : Chunks algo.output_len (leaf_hashes values algo) := by
  intro c hc
  rcases List.mem_map.1 hc with ⟨v, _, rfl⟩
  exact hWF.2 v

theorem new_with_flag_array (algo : Algorithm) (hWF : algo.WF)
    (values : List (List Nat)) (use_map : Bool) :
    (MerkleTree.new_with_flag values algo use_map).array
      = ((leaf_hashes values algo)
          ++ (upperH algo (leaf_hashes values algo)).1).flatten := by
  unfold MerkleTree.new_with_flag build_tree
  simp only [build_leaves_fst, List.nil_append]
  have h := build_level_correspond algo hWF values.length
    (leaf_hashes values algo) [] (by simp [leaf_hashes])
    (by simpa using leaf_hashes_chunks hWF values)
  simp only [List.nil_append, List.length_nil] at h
  rw [show (values.map (fun v => get_hash v algo)) = leaf_hashes values algo
    from rfl, h]

theorem new_with_flag_height (algo : Algorithm) (hWF : algo.WF)
    (values : List (List Nat)) (use_map : Bool) :
    (MerkleTree.new_with_flag values algo use_map).height
      = (upperH algo (leaf_hashes values algo)).2 := by
  unfold MerkleTree.new_with_flag build_tree
  simp only [build_leaves_fst, List.nil_append]
  have h := build_level_correspond algo hWF values.length
    (leaf_hashes values algo) [] (by simp [leaf_hashes])
    (by simpa using leaf_hashes_chunks hWF values)
  simp only [List.nil_append, List.length_nil] at h
  rw [show (values.map (fun v => get_hash v algo)) = leaf_hashes values algo
    from rfl, h]

theorem new_with_flag_items (algo : Algorithm) (values : List (List Nat))
    (use_map : Bool) :
    (MerkleTree.new_with_flag values algo use_map).items_count = values.length :=
  rfl

theorem new_with_flag_algo (algo : Algorithm) (values : List (List Nat))
    (use_map : Bool) :
    (MerkleTree.new_with_flag values algo use_map).algo = algo :=
  rfl

theorem new_with_flag_map_false (algo : Algorithm) (values : List (List Nat)) :
    (MerkleTree.new_with_flag values algo false).map = none := by
  unfold MerkleTree.new_with_flag build_tree
  simp [build_leaves_snd_none]

theorem new_with_flag_map_true (algo : Algorithm) (values : List (List Nat)) :
    (MerkleTree.new_with_flag values algo true).map
      = some (leaf_map algo values 0 []) := by
  unfold MerkleTree.new_with_flag build_tree
  simp [build_leaves_snd_some]

/-! ### Locating a leaf: the lookup map and the linear scan -/

theorem map_get_insert (m : List (List Nat × Nat)) (k : List Nat) (v : Nat)
    (h : List Nat) :
    map_get (map_insert m k v) h = if k = h then some v else map_get m h := by
  induction m with
  | nil => simp [map_insert, map_get]
  | cons p rest ih =>
    obtain ⟨k', v'⟩ := p
    by_cases hk : k' = k
    · subst hk
      by_cases hh : k' = h
      · subst hh
        simp [map_insert, map_get]
      · simp [map_insert, map_get, hh]
    · by_cases hh : k' = h
      · subst hh
        have hkh : ¬ k = k' := fun he => hk he.symm
        simp [map_insert, map_get, hk, hkh]
      · simp [map_insert, map_get, hk, hh, ih]

theorem leaf_map_get (algo : Algorithm) :
    ∀ (values : List (List Nat)) (i : Nat) (m : List (List Nat × Nat))
      (h : List Nat),
      (∃ j, j < values.length ∧ get_hash (values.getD j []) algo = h ∧
        map_get (leaf_map algo values i m) h = some (i + j)) ∨
      ((∀ v ∈ values, get_hash v algo ≠ h) ∧
        map_get (leaf_map algo values i m) h = map_get m h)
  | [], i, m, h => by
    right
    exact ⟨by simp, by simp [leaf_map]⟩
  | v :: rest, i, m, h => by
    rcases leaf_map_get algo rest (i + 1) (map_insert m (get_hash v algo) i) h
      with ⟨j, hj, hhj, hget⟩ | ⟨habs, hget⟩
    · left
      refine ⟨j + 1, by simp; omega, ?_, ?_⟩
      · simpa using hhj
      · rw [leaf_map]
        rw [hget]
        congr 1
        omega
    · by_cases hv : get_hash v algo = h
      · left
        refine ⟨0, by simp, by simpa using hv, ?_⟩
        rw [leaf_map, hget, map_get_insert, if_pos hv]
        simp
      · right
        constructor
        · intro w hw
          rcases List.mem_cons.1 hw with rfl | hw
          · exact hv
          · exact habs w hw
        · rw [leaf_map, hget, map_get_insert, if_neg hv]

theorem find_item_from_spec (t : MerkleTree) (LH U : List (List Nat))
    (hch : Chunks t.algo.output_len (LH ++ U))
    (harr : t.array = (LH ++ U).flatten)
    (hcnt : t.items_count ≤ LH.length) (hash : List Nat) :
    ∀ d j, t.items_count - j = d →
      (∃ i, j ≤ i ∧ i < t.items_count ∧ LH.getD i [] = hash ∧
        (∀ k, j ≤ k → k < i → LH.getD k [] ≠ hash) ∧
        t.find_item_from hash j = some i) ∨
      ((∀ k, j ≤ k → k < t.items_count → LH.getD k [] ≠ hash) ∧
        t.find_item_from hash j = none) := by
  intro d
  induction d with
  | zero =>
    intro j hd
    right
    constructor
    · intro k hk1 hk2; omega
    · rw [MerkleTree.find_item_from, if_neg (by omega)]
  | succ e ih =>
    intro j hd
    have hj : j < t.items_count := by omega
    have hslice : slice t.array (j * t.algo.output_len)
        (j * t.algo.output_len + t.algo.output_len) = LH.getD j [] := by
      rw [harr, slice_flatten_chunk hch (by simp; omega),
        getD_append_left _ _ _ (by omega)]
    by_cases heq : hash = slice t.array (j * t.algo.output_len)
        (j * t.algo.output_len + t.algo.output_len)
    · left
      refine ⟨j, le_refl j, hj, by rw [hslice] at heq; exact heq.symm,
        fun k hk1 hk2 => by omega, ?_⟩
      rw [MerkleTree.find_item_from, if_pos hj, if_pos heq]
    · have hrest := ih (j + 1) (by omega)
      have hstep : t.find_item_from hash j = t.find_item_from hash (j + 1) := by
        rw [MerkleTree.find_item_from, if_pos hj, if_neg heq]
      rw [hslice] at heq
      rcases hrest with ⟨i, hi1, hi2, hi3, hi4, hi5⟩ | ⟨habs, hget⟩
      · left
        refine ⟨i, by omega, hi2, hi3, ?_, by rw [hstep]; exact hi5⟩
        intro k hk1 hk2
        rcases Nat.eq_or_lt_of_le hk1 with rfl | hk1
        · exact fun he => heq he.symm
        · exact hi4 k hk1 hk2
      · right
        refine ⟨?_, by rw [hstep]; exact hget⟩
        intro k hk1 hk2
        rcases Nat.eq_or_lt_of_le hk1 with rfl | hk1
        · exact fun he => heq he.symm
        · exact habs k hk1 hk2

theorem leaf_hashes_getD (values : List (List Nat)) (algo : Algorithm)
    {j : Nat} (hj : j < values.length) :
    (leaf_hashes values algo).getD j [] = get_hash (values.getD j []) algo := by
  unfold leaf_hashes
  rw [List.getD_eq_getElem _ _ (by simp; omega),
    List.getD_eq_getElem _ _ hj, List.getElem_map]

theorem tree_chunks (algo : Algorithm) (hWF : algo.WF)
    (values : List (List Nat)) :
    Chunks algo.output_len
      (leaf_hashes values algo ++ (upperH algo (leaf_hashes values algo)).1) :=
  chunks_append (leaf_hashes_chunks hWF values)
    (upperH_chunks algo hWF _ _ rfl (leaf_hashes_chunks hWF values))

theorem tree_chunk_slice (algo : Algorithm) (hWF : algo.WF)
    (values : List (List Nat)) (use_map : Bool) {i : Nat}
    (hi : i < values.length) :
    slice (MerkleTree.new_with_flag values algo use_map).array
      (i * algo.output_len) (i * algo.output_len + algo.output_len)
      = (leaf_hashes values algo).getD i [] := by
  rw [new_with_flag_array algo hWF,
    slice_flatten_chunk (tree_chunks algo hWF values)
      (by simp [leaf_hashes]; omega),
    getD_append_left _ _ _ (by simp [leaf_hashes]; omega)]

theorem find_item_some_bound (algo : Algorithm) (hWF : algo.WF)
    (values : List (List Nat)) (use_map : Bool) (h : List Nat) (i : Nat)
    (hfind : (MerkleTree.new_with_flag values algo use_map).find_item h
      = some i) : i < values.length := by
  cases use_map with
  | true =>
    rw [MerkleTree.find_item, new_with_flag_map_true] at hfind
    dsimp only at hfind
    rcases leaf_map_get algo values 0 [] h with ⟨j, hj, _, hget⟩ | ⟨_, hget⟩
    · rw [hget] at hfind
      simp at hfind
      omega
    · rw [hget] at hfind
      simp [map_get] at hfind
  | false =>
    rw [MerkleTree.find_item, new_with_flag_map_false] at hfind
    dsimp only at hfind
    rcases find_item_from_spec _ (leaf_hashes values algo) _
        (by rw [new_with_flag_algo]; exact tree_chunks algo hWF values)
        (new_with_flag_array algo hWF values false)
        (by simp [leaf_hashes, new_with_flag_items])
        h ((MerkleTree.new_with_flag values algo false).items_count) 0
        (by omega)
      with ⟨i', _, hi', _, _, hget⟩ | ⟨_, hget⟩
    · rw [hget] at hfind
      have : i' = i := by injection hfind
      subst this
      simpa [new_with_flag_items] using hi'
    · rw [hget] at hfind
      exact absurd hfind (by simp)

theorem find_item_none_of_absent (algo : Algorithm) (hWF : algo.WF)
    (values : List (List Nat)) (use_map : Bool) (h : List Nat)
    (habs : ∀ w ∈ values, get_hash w algo ≠ h) :
    (MerkleTree.new_with_flag values algo use_map).find_item h = none := by
  cases use_map with
  | true =>
    rw [MerkleTree.find_item, new_with_flag_map_true]
    dsimp only
    rcases leaf_map_get algo values 0 [] h with ⟨j, hj, hhj, _⟩ | ⟨_, hget⟩
    · exfalso
      have hmem : values.getD j [] ∈ values := by
        rw [List.getD_eq_getElem _ _ hj]
        exact List.getElem_mem hj
      exact habs _ hmem hhj
    · rw [hget]
      rfl
  | false =>
    rw [MerkleTree.find_item, new_with_flag_map_false]
    dsimp only
    rcases find_item_from_spec _ (leaf_hashes values algo) _
        (by rw [new_with_flag_algo]; exact tree_chunks algo hWF values)
        (new_with_flag_array algo hWF values false)
        (by simp [leaf_hashes, new_with_flag_items])
        h ((MerkleTree.new_with_flag values algo false).items_count) 0
        (by omega)
      with ⟨i', _, hi', hhash, _, hget⟩ | ⟨_, hget⟩
    · exfalso
      rw [new_with_flag_items] at hi'
      rw [leaf_hashes_getD values algo hi'] at hhash
      have hmem : values.getD i' [] ∈ values := by
        rw [List.getD_eq_getElem _ _ hi']
        exact List.getElem_mem hi'
      exact habs _ hmem hhash
    · exact hget

theorem find_item_found (algo : Algorithm) (hWF : algo.WF)
    (values : List (List Nat)) (use_map : Bool) {v : List Nat}
    (hv : v ∈ values) :
    ∃ i, (MerkleTree.new_with_flag values algo use_map).find_item
        (get_hash v algo) = some i ∧ i < values.length := by
  obtain ⟨j, hj, hvj⟩ := List.mem_iff_getElem.1 hv
  cases use_map with
  | true =>
    rw [MerkleTree.find_item, new_with_flag_map_true]
    dsimp only
    rcases leaf_map_get algo values 0 [] (get_hash v algo)
      with ⟨j', hj', _, hget⟩ | ⟨habs, _⟩
    · exact ⟨0 + j', by rw [hget], by omega⟩
    · exact absurd rfl (habs v hv)
  | false =>
    rw [MerkleTree.find_item, new_with_flag_map_false]
    dsimp only
    rcases find_item_from_spec _ (leaf_hashes values algo) _
        (by rw [new_with_flag_algo]; exact tree_chunks algo hWF values)
        (new_with_flag_array algo hWF values false)
        (by simp [leaf_hashes, new_with_flag_items])
        (get_hash v algo)
        ((MerkleTree.new_with_flag values algo false).items_count) 0
        (by omega)
      with ⟨i', _, hi', _, _, hget⟩ | ⟨habs, _⟩
    · exact ⟨i', hget, by simpa [new_with_flag_items] using hi'⟩
    · exfalso
      apply habs j (by omega) (by simpa [new_with_flag_items] using hj)
      rw [leaf_hashes_getD values algo hj, List.getD_eq_getElem _ _ hj, hvj]

/-! ### The proof walk: `add_level` collects one sibling chunk per level -/


theorem getD_mem {a : Type} {l : List a} {i : Nat} (hi : i < l.length)
    (d : a) : l.getD i d ∈ l := by
  rw [List.getD_eq_getElem _ _ hi]
  exact List.getElem_mem hi

theorem chunk_getD_length {L : Nat} {cs : List (List Nat)} (h : Chunks L cs)
    {i : Nat} (hi : i < cs.length) : (cs.getD i []).length = L :=
  h _ (getD_mem hi [])

theorem add_level_acc (t : MerkleTree) :
    ∀ n start_index index r, t.add_level start_index index n r
      = r ++ t.add_level start_index index n [] := by
  intro n
  induction n using Nat.strong_induction_on with
  | _ n ih =>
    intro s i r
    conv_lhs => rw [MerkleTree.add_level]
    conv_rhs => rw [MerkleTree.add_level]
    by_cases h0 : n = 0
    · simp [h0]
    · rw [if_neg h0, if_neg h0]
      by_cases h1 : (n + n % 2) / 2 = 1
      · rw [if_pos h1, if_pos h1]
        simp
      · rw [if_neg h1, if_neg h1]
        rw [ih ((n + n % 2) / 2) (by omega),
          ih ((n + n % 2) / 2) (by omega) _ _ ([] ++ _)]
        simp [List.append_assoc]

theorem add_level_walk (algo : Algorithm) (hWF : algo.WF) :
    ∀ n lv pre (t : MerkleTree), t.algo = algo →
      t.array = ((pre ++ lv) ++ (upperH algo lv).1).flatten →
      Chunks algo.output_len pre → Chunks algo.output_len lv →
      lv.length = n → 1 ≤ n →
      ∀ i, i < n →
        ∃ sibs : List (List Nat),
          t.add_level (pre.length * algo.output_len) i n [] = sibs.flatten ∧
          Chunks algo.output_len sibs ∧
          sibs.length + 1 = (upperH algo lv).2 ∧
          fold_hashes algo (lv.getD i []) sibs
            = ((pre ++ lv) ++ (upperH algo lv).1).getLastD [] := by
  intro n
  induction n using Nat.strong_induction_on with
  | _ n ih =>
    intro lv pre t halgo harr hpre hlv hn hn1 i hi
    set L := algo.output_len with hL
    obtain ⟨extra, hex, hexch, hexlen⟩ := extra_eq hlv
    set lv1 : List (List Nat) := lv ++ extra with hlv1
    have hlv1ch : Chunks L lv1 := chunks_append hlv hexch
    have hlv1len : lv1.length = n + n % 2 := by
      rw [hlv1]
      simp [hexlen, hn]
    set next := hash_level algo lv1 with hnext
    have hnextlen : next.length = (n + n % 2) / 2 := by
      rw [hnext, hash_level_length, hlv1len]
    have hnextch : Chunks L next := hash_level_chunks algo hWF lv1
    have hrel : calculate_relatives i
        = ((if i % 2 = 0 then i + 1 else i - 1), i / 2) := by
      unfold calculate_relatives
      simp only [Prod.mk.injEq]
      exact ⟨by trivial, by omega⟩
    set sib := if i % 2 = 0 then i + 1 else i - 1 with hsib
    have hsib_lt : sib < lv1.length := by
      rw [hlv1len, hsib]
      split_ifs with hp <;> omega
    have hup : upperH algo lv
        = if 1 < next.length then
            (extra ++ next ++ (upperH algo next).1, (upperH algo next).2 + 1)
          else if 0 < next.length then (extra ++ next, 2) else ([], 0) := by
      rw [upperH, hex, ← hlv1, ← hnext]
      exact dite_eq_ite
    by_cases hbig : 1 < next.length
    · -- more than one node above: recurse
      have hU1 : (upperH algo lv).1 = extra ++ next ++ (upperH algo next).1 := by
        rw [hup, if_pos hbig]
      have hU2 : (upperH algo lv).2 = (upperH algo next).2 + 1 := by
        rw [hup, if_pos hbig]
      have harr2 : t.array
          = (((pre ++ lv1) ++ next) ++ (upperH algo next).1).flatten := by
        rw [harr, hU1, hlv1]
        simp [List.append_assoc]
      have hAch : Chunks L (((pre ++ lv1) ++ next) ++ (upperH algo next).1) :=
        chunks_append (chunks_append (chunks_append hpre hlv1ch) hnextch)
          (upperH_chunks algo hWF _ _ rfl hnextch)
      have hstep : t.add_level (pre.length * L) i n []
          = t.add_level (pre.length * L + (n + n % 2) * L) (i / 2)
              ((n + n % 2) / 2)
              ([] ++ slice t.array (pre.length * L + sib * L)
                (pre.length * L + sib * L + L)) := by
        conv_lhs => rw [MerkleTree.add_level]
        rw [if_neg (by omega : ¬ n = 0)]
        simp only [halgo, hrel, ← hL, ← hsib]
        rw [if_neg (by omega : ¬ (n + n % 2) / 2 = 1)]
      have hSchunk : slice t.array (pre.length * L + sib * L)
          (pre.length * L + sib * L + L) = lv1.getD sib [] := by
        have e : pre.length * L + sib * L = (pre.length + sib) * L := by ring
        rw [harr2, e,
          slice_flatten_chunk hAch (by simp; omega),
          getD_append_left _ _ _ (by simp; omega),
          getD_append_left _ _ _ (by simp; omega),
          getD_append_right _ _ _ (by omega) (by omega)]
        congr 1
        omega
      have hIH := ih ((n + n % 2) / 2) (by omega) next (pre ++ lv1) t halgo
        (by rw [harr2]) (chunks_append hpre hlv1ch) hnextch
        (by rw [hnextlen]) (by omega) (i / 2) (by omega)
      obtain ⟨sibs2, hs1, hs2, hs3, hs4⟩ := hIH
      refine ⟨lv1.getD sib [] :: sibs2, ?_, ?_, ?_, ?_⟩
      · rw [hstep, add_level_acc, hSchunk]
        have estart : pre.length * L + (n + n % 2) * L
            = ((pre ++ lv1) : List (List Nat)).length * L := by
          simp [hlv1len]
          ring
        rw [estart, hs1]
        simp
      · intro c hc
        rcases List.mem_cons.1 hc with rfl | hc
        · exact chunk_getD_length hlv1ch hsib_lt
        · exact hs2 c hc
      · rw [hU2]
        simp only [List.length_cons]
        omega
      · show fold_hashes algo (lv.getD i []) (lv1.getD sib [] :: sibs2) = _
        rw [fold_hashes]
        have hlv_lv1 : lv.getD i [] = lv1.getD i [] :=
          (getD_append_left lv extra [] (by omega)).symm
        have hpair : get_pair_hash (lv1.getD i []) (lv1.getD sib []) algo
            = next.getD (i / 2) [] := by
          rcases Nat.mod_two_eq_zero_or_one i with hp | hp
          · have hs : sib = i + 1 := by rw [hsib, if_pos hp]
            have h2i : 2 * (i / 2) = i := by omega
            rw [hnext, hash_level_getD algo lv1 (i / 2) (by omega), h2i, hs]
          · have hs : sib = i - 1 := by rw [hsib, if_neg (by omega)]
            have h2i1 : 2 * (i / 2) + 1 = i := by omega
            have h2i : 2 * (i / 2) = i - 1 := by omega
            rw [hnext, hash_level_getD algo lv1 (i / 2) (by omega), h2i1, h2i,
              hs]
            exact get_pair_hash_comm algo _ _
              (chunk_getD_length hlv1ch (by omega))
              (chunk_getD_length hlv1ch (by omega))
        rw [hlv_lv1, hpair, hs4]
        rw [hU1, hlv1]
        simp [List.append_assoc]
    · -- exactly the root above: stop before it
      have hone : next.length = 1 := by omega
      have hU1 : (upperH algo lv).1 = extra ++ next := by
        rw [hup, if_neg hbig, if_pos (by omega)]
      have hU2 : (upperH algo lv).2 = 2 := by
        rw [hup, if_neg hbig, if_pos (by omega)]
      obtain ⟨c0, hc0⟩ := List.length_eq_one.1 hone
      have hstep : t.add_level (pre.length * L) i n []
          = [] ++ slice t.array (pre.length * L + sib * L)
              (pre.length * L + sib * L + L) := by
        conv_lhs => rw [MerkleTree.add_level]
        rw [if_neg (by omega : ¬ n = 0)]
        simp only [halgo, hrel, ← hL, ← hsib]
        rw [if_pos (by omega : (n + n % 2) / 2 = 1)]
      have harr2 : t.array = ((pre ++ lv1) ++ next).flatten := by
        rw [harr, hU1, hlv1]
        simp [List.append_assoc]
      have hAch : Chunks L ((pre ++ lv1) ++ next) :=
        chunks_append (chunks_append hpre hlv1ch) hnextch
      have hSchunk : slice t.array (pre.length * L + sib * L)
          (pre.length * L + sib * L + L) = lv1.getD sib [] := by
        have e : pre.length * L + sib * L = (pre.length + sib) * L := by ring
        rw [harr2, e,
          slice_flatten_chunk hAch (by simp; omega),
          getD_append_left _ _ _ (by simp; omega),
          getD_append_right _ _ _ (by omega) (by omega)]
        congr 1
        omega
      refine ⟨[lv1.getD sib []], ?_, ?_, ?_, ?_⟩
      · rw [hstep, hSchunk]
        simp
      · intro c hc
        rcases List.mem_cons.1 hc with rfl | hc
        · exact chunk_getD_length hlv1ch hsib_lt
        · simp at hc
      · rw [hU2]
        simp
      · have hfold : fold_hashes algo (lv.getD i []) [lv1.getD sib []]
            = get_pair_hash (lv.getD i []) (lv1.getD sib []) algo := rfl
        rw [hfold]
        have hlv_lv1 : lv.getD i [] = lv1.getD i [] :=
          (getD_append_left lv extra [] (by omega)).symm
        have hpair : get_pair_hash (lv1.getD i []) (lv1.getD sib []) algo
            = next.getD (i / 2) [] := by
          rcases Nat.mod_two_eq_zero_or_one i with hp | hp
          · have hs : sib = i + 1 := by rw [hsib, if_pos hp]
            have h2i : 2 * (i / 2) = i := by omega
            rw [hnext, hash_level_getD algo lv1 (i / 2) (by omega), h2i, hs]
          · have hs : sib = i - 1 := by rw [hsib, if_neg (by omega)]
            have h2i1 : 2 * (i / 2) + 1 = i := by omega
            have h2i : 2 * (i / 2) = i - 1 := by omega
            rw [hnext, hash_level_getD algo lv1 (i / 2) (by omega), h2i1, h2i,
              hs]
            exact get_pair_hash_comm algo _ _
              (chunk_getD_length hlv1ch (by omega))
              (chunk_getD_length hlv1ch (by omega))
        rw [hlv_lv1, hpair]
        have hi2 : i / 2 = 0 := by omega
        rw [hi2, hU1, hc0]
        have hassoc : (pre ++ lv) ++ (extra ++ [c0])
            = ((pre ++ lv) ++ extra) ++ [c0] := by
          simp [List.append_assoc]
        rw [hassoc, List.getLastD_concat]
        rfl

/-! ### `validate` over a proof made of whole chunks -/

theorem validate_loop_spec (t : MerkleTree) {algo : Algorithm}
    (halgo : t.algo = algo) (hWF : algo.WF) (ps : List (List Nat))
    (hch : Chunks algo.output_len ps) :
    ∀ d k h, ps.length - k = d → k ≤ ps.length →
      t.validate_loop ps.flatten h k = some (fold_hashes algo h (ps.drop k)) := by
  have hL : 0 < algo.output_len := hWF.1
  have hflen : ps.flatten.length = ps.length * algo.output_len :=
    flatten_length_chunks hch
  intro d
  induction d with
  | zero =>
    intro k h hd hk
    rw [MerkleTree.validate_loop, if_neg]
    · have hkk : k = ps.length := by omega
      rw [hkk, List.drop_length, fold_hashes]
    · rw [halgo, hflen, Nat.mul_div_cancel _ hL]
      omega
  | succ e ihd =>
    intro k h hd hk
    have hklt : k < ps.length := by omega
    rw [MerkleTree.validate_loop, if_pos]
    · have hgs : t.get_slice ps.flatten k = some (ps.getD k []) := by
        rw [MerkleTree.get_slice, if_pos, halgo,
          slice_flatten_chunk hch hklt]
        rw [halgo, hflen]
        calc k * algo.output_len + algo.output_len
            = (k + 1) * algo.output_len := by ring
          _ ≤ ps.length * algo.output_len :=
              Nat.mul_le_mul_right _ (by omega)
      rw [hgs]
      dsimp only
      rw [ihd (k + 1) (get_pair_hash h (ps.getD k []) (t.algo)) (by omega)
        (by omega)]
      congr 1
      rw [List.drop_eq_getElem_cons hklt, ← List.getD_eq_getElem ps [] hklt]
      rw [fold_hashes, halgo]
    · rw [halgo, hflen, Nat.mul_div_cancel _ hL]
      omega

theorem validate_flatten (t : MerkleTree) {algo : Algorithm}
    (halgo : t.algo = algo) (hWF : algo.WF) (ps : List (List Nat))
    (hch : Chunks algo.output_len ps) (h2 : 2 ≤ ps.length) :
    t.validate ps.flatten
      = some (fold_hashes algo (ps.getD 0 []) (ps.drop 1) == t.get_root) := by
  have hL : 0 < algo.output_len := hWF.1
  have hflen : ps.flatten.length = ps.length * algo.output_len :=
    flatten_length_chunks hch
  have hgs0 : t.get_slice ps.flatten 0 = some (ps.getD 0 []) := by
    rw [MerkleTree.get_slice, if_pos, halgo,
      slice_flatten_chunk hch (by omega)]
    rw [halgo, hflen]
    calc 0 * algo.output_len + algo.output_len
        = 1 * algo.output_len := by ring
      _ ≤ ps.length * algo.output_len := Nat.mul_le_mul_right _ (by omega)
  have hgs1 : t.get_slice ps.flatten 1 = some (ps.getD 1 []) := by
    rw [MerkleTree.get_slice, if_pos, halgo,
      slice_flatten_chunk hch (by omega)]
    rw [halgo, hflen]
    calc 1 * algo.output_len + algo.output_len
        = 2 * algo.output_len := by ring
      _ ≤ ps.length * algo.output_len := Nat.mul_le_mul_right _ (by omega)
  rw [MerkleTree.validate, hgs0, hgs1]
  dsimp only
  rw [validate_loop_spec t halgo hWF ps hch (ps.length - 2) 2
    (get_pair_hash (ps.getD 0 []) (ps.getD 1 []) t.algo) rfl (by omega)]
  dsimp only
  congr 2
  have hd1 : ps.drop 1 = ps.getD 1 [] :: ps.drop 2 := by
    rw [List.drop_eq_getElem_cons (by omega : 1 < ps.length),
      ← List.getD_eq_getElem ps [] (by omega : 1 < ps.length)]
  rw [hd1, fold_hashes, halgo]

theorem root_eq_last_chunk (t : MerkleTree) {algo : Algorithm}
    (halgo : t.algo = algo) (hWF : algo.WF) (cs : List (List Nat))
    (hch : Chunks algo.output_len cs) (harr : t.array = cs.flatten)
    (hne : cs ≠ []) : t.get_root = cs.getLastD [] := by
  have hL : 0 < algo.output_len := hWF.1
  have hflen : t.array.length = cs.length * algo.output_len := by
    rw [harr]
    exact flatten_length_chunks hch
  have hcs : 0 < cs.length := List.length_pos.2 hne
  have hnc : t.nodes_count ≠ 0 := by
    rw [MerkleTree.nodes_count, halgo, hflen, Nat.mul_div_cancel _ hL]
    omega
  rw [MerkleTree.get_root, if_neg (by simp [MerkleTree.is_empty, hnc]),
    halgo, harr]
  rw [← harr, hflen]
  rw [harr, show cs.length * algo.output_len
      = cs.flatten.length from (flatten_length_chunks hch).symm]
  exact flatten_last_chunk cs hch hne

/-! ### Building and validating a proof for a found leaf -/

theorem build_proof_validate (algo : Algorithm) (hWF : algo.WF)
    (values : List (List Nat)) (use_map : Bool) (v : List Nat) (i : Nat)
    (hfind : (MerkleTree.new_with_flag values algo use_map).find_item
      (get_hash v algo) = some i)
    (hi : i < values.length) :
    ∃ p, (MerkleTree.new_with_flag values algo use_map).build_proof v = some p
      ∧ p.length = (MerkleTree.new_with_flag values algo use_map).height
          * algo.output_len
      ∧ (MerkleTree.new_with_flag values algo use_map).validate p
          = some true := by
  set t := MerkleTree.new_with_flag values algo use_map with ht
  set LH := leaf_hashes values algo with hLH
  have hLHlen : LH.length = values.length := by simp [hLH, leaf_hashes]
  have hLHch : Chunks algo.output_len LH := leaf_hashes_chunks hWF values
  have halgo : t.algo = algo := rfl
  have harr : t.array = (([] ++ LH) ++ (upperH algo LH).1).flatten := by
    rw [ht, new_with_flag_array algo hWF, List.nil_append]
  have hwalk := add_level_walk algo hWF values.length LH [] t halgo harr
    (chunks_nil _) hLHch hLHlen (by omega) i hi
  obtain ⟨sibs, hs1, hs2, hs3, hs4⟩ := hwalk
  simp only [List.length_nil, Nat.zero_mul] at hs1
  have hseed : slice t.array (i * t.algo.output_len)
      (i * t.algo.output_len + t.algo.output_len) = LH.getD i [] := by
    rw [halgo, ht]
    exact tree_chunk_slice algo hWF values use_map hi
  have hbp : t.build_proof v = some ((LH.getD i [] :: sibs).flatten) := by
    rw [MerkleTree.build_proof]
    rw [show get_hash v t.algo = get_hash v algo from rfl, hfind]
    dsimp only
    rw [hseed, show t.items_count = values.length from rfl]
    rw [add_level_acc t values.length 0 i (LH.getD i []), hs1]
    simp
  have hpch : Chunks algo.output_len (LH.getD i [] :: sibs) := by
    intro c hc
    rcases List.mem_cons.1 hc with rfl | hc
    · exact chunk_getD_length hLHch (by omega)
    · exact hs2 c hc
  have hplen : (LH.getD i [] :: sibs).length = t.height := by
    rw [ht, new_with_flag_height algo hWF, ← hLH]
    simp only [List.length_cons]
    omega
  have h2 : 2 ≤ (LH.getD i [] :: sibs).length := by
    have hh := upperH_height algo values.length LH hLHlen (by omega)
    simp only [List.length_cons]
    omega
  refine ⟨(LH.getD i [] :: sibs).flatten, hbp, ?_, ?_⟩
  · rw [flatten_length_chunks hpch, hplen]
  · rw [validate_flatten t halgo hWF _ hpch h2]
    have hroot : t.get_root = (([] ++ LH) ++ (upperH algo LH).1).getLastD [] := by
      refine root_eq_last_chunk t halgo hWF _ ?_ harr ?_
      · simpa using chunks_append hLHch (upperH_chunks algo hWF _ _ rfl hLHch)
      · apply List.length_pos.1
        simp only [List.length_append, List.nil_append]
        omega
    have hfold : fold_hashes algo ((LH.getD i [] :: sibs).getD 0 [])
        ((LH.getD i [] :: sibs).drop 1) = t.get_root := by
      rw [hroot]
      simpa using hs4
    rw [hfold]
    simp

/-! ### Small trees and the empty tree -/

theorem upperH_nil (algo : Algorithm) : upperH algo [] = ([], 0) := by
  rw [upperH]
  simp [hash_level]

theorem upperH_one (algo : Algorithm) (h : List Nat) :
    upperH algo [h] = ([h, get_pair_hash h h algo], 2) := by
  rw [upperH]
  simp [hash_level]

theorem upperH_four (algo : Algorithm) (a b c d : List Nat) :
    upperH algo [a, b, c, d]
      = ([get_pair_hash a b algo, get_pair_hash c d algo,
          get_pair_hash (get_pair_hash a b algo) (get_pair_hash c d algo) algo],
         3) := by
  rw [upperH]
  simp only [List.length_cons, List.length_nil]
  rw [if_neg (by omega)]
  simp only [List.append_nil, hash_level, List.length_cons, List.length_nil]
  rw [dif_pos (by omega)]
  rw [upperH]
  simp [hash_level]

theorem new_with_flag_empty (algo : Algorithm) (hWF : algo.WF)
    (use_map : Bool) :
    (MerkleTree.new_with_flag [] algo use_map).array = []
      ∧ (MerkleTree.new_with_flag [] algo use_map).height = 0 := by
  constructor
  · rw [new_with_flag_array algo hWF]
    simp [leaf_hashes, upperH_nil]
  · rw [new_with_flag_height algo hWF]
    simp [leaf_hashes, upperH_nil]

/-! ### The two lookup modes agree when the leaf hashes are distinct -/

theorem find_item_modes_eq (algo : Algorithm) (hWF : algo.WF)
    (values : List (List Nat))
    (hnd : (leaf_hashes values algo).Nodup) (h : List Nat) :
    (MerkleTree.new_with_flag values algo true).find_item h
      = (MerkleTree.new_with_flag values algo false).find_item h := by
  set LH := leaf_hashes values algo with hLH
  have hLHlen : LH.length = values.length := by simp [hLH, leaf_hashes]
  by_cases hpres : ∃ k, k < values.length ∧ LH.getD k [] = h
  · obtain ⟨k, hk, hkh⟩ := hpres
    -- the map side finds an index holding h
    have hm : ∃ jm, jm < values.length ∧ LH.getD jm [] = h ∧
        (MerkleTree.new_with_flag values algo true).find_item h = some jm := by
      rw [MerkleTree.find_item, new_with_flag_map_true]
      dsimp only
      rcases leaf_map_get algo values 0 [] h with ⟨j, hj, hjh, hget⟩ | ⟨habs, _⟩
      · refine ⟨j, hj, ?_, by rw [hget]; congr 1; omega⟩
        rw [hLH, leaf_hashes_getD values algo hj]
        exact hjh
      · exfalso
        apply habs (values.getD k []) (getD_mem (by omega) [])
        rw [← leaf_hashes_getD values algo (by omega), ← hLH]
        exact hkh
    -- the linear side finds an index holding h
    have hl : ∃ jl, jl < values.length ∧ LH.getD jl [] = h ∧
        (MerkleTree.new_with_flag values algo false).find_item h = some jl := by
      rw [MerkleTree.find_item, new_with_flag_map_false]
      dsimp only
      rcases find_item_from_spec (MerkleTree.new_with_flag values algo false)
          LH ((upperH algo LH).1)
          (by rw [new_with_flag_algo]; rw [hLH]; exact tree_chunks algo hWF values)
          (by rw [new_with_flag_array algo hWF, hLH])
          (by rw [new_with_flag_items, hLHlen])
          h ((MerkleTree.new_with_flag values algo false).items_count) 0
          (by omega)
        with ⟨i1, _, hi1, hhash, _, hget⟩ | ⟨habs, _⟩
      · rw [new_with_flag_items] at hi1
        exact ⟨i1, hi1, hhash, hget⟩
      · exfalso
        exact habs k (by omega) (by rw [new_with_flag_items]; omega) hkh
    obtain ⟨jm, hjm, hjmh, hmeq⟩ := hm
    obtain ⟨jl, hjl, hjlh, hleq⟩ := hl
    rw [hmeq, hleq]
    have : jm = jl := by
      have h1 : LH[jm] = LH[jl] := by
        rw [← List.getD_eq_getElem LH [] (by omega),
          ← List.getD_eq_getElem LH [] (by omega), hjmh, hjlh]
      exact (List.Nodup.getElem_inj_iff hnd).mp h1
    rw [this]
  · -- absent on both sides
    push_neg at hpres
    have habs : ∀ w ∈ values, get_hash w algo ≠ h := by
      intro w hw he
      obtain ⟨j, hj, hvj⟩ := List.mem_iff_getElem.1 hw
      apply hpres j hj
      rw [hLH, leaf_hashes_getD values algo hj, List.getD_eq_getElem _ _ hj,
        hvj]
      exact he
    rw [find_item_none_of_absent algo hWF values true h habs,
      find_item_none_of_absent algo hWF values false h habs]

theorem add_level_congr (t1 t2 : MerkleTree) (harr : t1.array = t2.array)
    (halgo : t1.algo = t2.algo) :
    ∀ n s i r, t1.add_level s i n r = t2.add_level s i n r := by
  intro n
  induction n using Nat.strong_induction_on with
  | _ n ih =>
    intro s i r
    conv_lhs => rw [MerkleTree.add_level]
    conv_rhs => rw [MerkleTree.add_level]
    by_cases h0 : n = 0
    · simp [h0]
    · rw [if_neg h0, if_neg h0, harr, halgo]
      by_cases h1 : (n + n % 2) / 2 = 1
      · rw [if_pos h1, if_pos h1]
      · rw [if_neg h1, if_neg h1]
        exact ih ((n + n % 2) / 2) (by omega) _ _ _

theorem build_proof_none (t : MerkleTree) (v : List Nat)
    (hfind : t.find_item (get_hash v t.algo) = none) :
    t.build_proof v = none := by
  rw [MerkleTree.build_proof, hfind]

/-! ### Small concrete instances -/


theorem toyAlgo_WF : toyAlgo.WF :=
  ⟨Nat.one_pos, fun _ => rfl⟩

theorem upperH_two (algo : Algorithm) (a b : List Nat) :
    upperH algo [a, b] = ([get_pair_hash a b algo], 2) := by
  rw [upperH]
  simp [hash_level]

theorem upperH_three (algo : Algorithm) (a b c : List Nat) :
    upperH algo [a, b, c]
      = ([c, get_pair_hash a b algo, get_pair_hash c c algo,
          get_pair_hash (get_pair_hash a b algo) (get_pair_hash c c algo) algo],
         3) := by
  rw [upperH]
  norm_num [hash_level, upperH_two]

theorem root_of_chunks (algo : Algorithm) (hWF : algo.WF)
    (values : List (List Nat)) (use_map : Bool) (hne : values ≠ []) :
    (MerkleTree.new_with_flag values algo use_map).get_root
      = (leaf_hashes values algo
          ++ (upperH algo (leaf_hashes values algo)).1).getLastD [] := by
  apply root_eq_last_chunk _ rfl hWF _ (tree_chunks algo hWF values)
    (new_with_flag_array algo hWF values use_map)
  apply List.length_pos.1
  simp only [List.length_append, leaf_hashes, List.length_map]
  have : 0 < values.length := List.length_pos.2 hne
  omega

theorem root_four (algo : Algorithm) (hWF : algo.WF) (a b c d : List Nat)
    (use_map : Bool) :
    (MerkleTree.new_with_flag [a, b, c, d] algo use_map).get_root
      = get_pair_hash
          (get_pair_hash (get_hash a algo) (get_hash b algo) algo)
          (get_pair_hash (get_hash c algo) (get_hash d algo) algo) algo := by
  rw [root_of_chunks algo hWF [a, b, c, d] use_map (by simp)]
  simp only [leaf_hashes, List.map_cons, List.map_nil, upperH_four]
  simp [List.getLastD_concat]

/-! ## The claims -/

/-- C8: the index arithmetic of proof building computes the sibling of
position `i` as `i XOR 1` and the parent as `i >> 1`, as total functions. -/
theorem C8_sibling_xor_parent_shift (i : Nat) :
    calculate_relatives i = (i ^^^ 1, i >>> 1) := by
  rw [calculate_relatives_eq, Nat.shiftRight_one]

/-- C4: pair hashing is commutative: for digests of the algorithm's output
length, `get_pair_hash a b = get_pair_hash b a`, because the two inputs are
compared lexicographically byte-by-byte and swapped when the first is
greater. -/
theorem C4_pair_hash_commutative (algo : Algorithm) (a b : List Nat)
    (ha : a.length = algo.output_len) (hb : b.length = algo.output_len) :
    get_pair_hash a b algo = get_pair_hash b a algo :=
  get_pair_hash_comm algo a b ha hb

theorem C4_witness :
    (get_hash [0] toyAlgo).length = toyAlgo.output_len ∧
    (get_hash [1] toyAlgo).length = toyAlgo.output_len ∧
    get_pair_hash (get_hash [0] toyAlgo) (get_hash [1] toyAlgo) toyAlgo
      = get_pair_hash (get_hash [1] toyAlgo) (get_hash [0] toyAlgo) toyAlgo :=
  ⟨by decide, by decide,
    C4_pair_hash_commutative toyAlgo _ _ (by decide) (by decide)⟩

/-- C10: on a tree built from the empty input list, `build_proof` returns
`None` for every candidate value, in both lookup modes, without crashing. -/
theorem C10_empty_tree_no_proof (algo : Algorithm) (use_map : Bool)
    (v : List Nat) :
    (MerkleTree.new_with_flag [] algo use_map).build_proof v = none := by
  apply build_proof_none
  cases use_map with
  | true =>
    rw [MerkleTree.find_item, new_with_flag_map_true]
    rfl
  | false =>
    rw [MerkleTree.find_item, new_with_flag_map_false]
    dsimp only
    rw [MerkleTree.find_item_from, if_neg]
    rw [new_with_flag_items]
    simp

/-- C1: contrary to the specification, `validate` does not return `false`
on a malformed proof shorter than two digest chunks: the source slices
`proof[0..L]` and `proof[L..2L]` unconditionally, so it panics (modelled as
`none`). -/
theorem C1_validate_short_proof_panics (t : MerkleTree) (proof : List Nat)
    (hL : 0 < t.algo.output_len)
    (hshort : proof.length < 2 * t.algo.output_len) :
    t.validate proof = none := by
  rw [MerkleTree.validate]
  by_cases h0 : 0 * t.algo.output_len + t.algo.output_len ≤ proof.length
  · have e0 : t.get_slice proof 0
        = some (slice proof (0 * t.algo.output_len)
            (0 * t.algo.output_len + t.algo.output_len)) := by
      rw [MerkleTree.get_slice, if_pos h0]
    have e1 : t.get_slice proof 1 = none := by
      rw [MerkleTree.get_slice, if_neg (by omega)]
    rw [e0, e1]
  · have e0 : t.get_slice proof 0 = none := by
      rw [MerkleTree.get_slice, if_neg h0]
    rw [e0]

theorem C1_witness :
    0 < (MerkleTree.new [[0]] toyAlgo).algo.output_len ∧
    ([] : List Nat).length
      < 2 * (MerkleTree.new [[0]] toyAlgo).algo.output_len ∧
    (MerkleTree.new [[0]] toyAlgo).validate [] = none :=
  ⟨by decide, by decide,
    C1_validate_short_proof_panics (MerkleTree.new [[0]] toyAlgo) []
      (by decide) (by decide)⟩

/-- C6: a single-leaf tree has height 2, three nodes, and its root is the
pair hash of the leaf digest with itself (the leaf is paired with a
duplicate of itself). -/
theorem C6_single_leaf (algo : Algorithm) (hWF : algo.WF) (v : List Nat) :
    (MerkleTree.new [v] algo).height = 2 ∧
    (MerkleTree.new [v] algo).nodes_count = 3 ∧
    (MerkleTree.new [v] algo).get_root
      = get_pair_hash (get_hash v algo) (get_hash v algo) algo := by
  have hLH : leaf_hashes [v] algo = [get_hash v algo] := by
    simp [leaf_hashes]
  refine ⟨?_, ?_, ?_⟩
  · rw [MerkleTree.new, new_with_flag_height algo hWF, hLH, upperH_one]
  · rw [MerkleTree.nodes_count, MerkleTree.new,
      new_with_flag_array algo hWF, hLH, upperH_one]
    have hch : Chunks algo.output_len
        ([get_hash v algo]
          ++ [get_hash v algo,
              get_pair_hash (get_hash v algo) (get_hash v algo) algo]) := by
      intro c hc
      simp at hc
      rcases hc with rfl | rfl
      · exact hWF.2 v
      · exact get_pair_hash_length hWF _ _
    rw [show (MerkleTree.new_with_flag [v] algo false).algo = algo from rfl,
      flatten_length_chunks hch]
    simp [Nat.mul_div_cancel _ hWF.1]
  · rw [MerkleTree.new, root_of_chunks algo hWF [v] false (by simp), hLH,
      upperH_one]
    simp

theorem C6_witness :
    toyAlgo.WF ∧
    (MerkleTree.new [[5]] toyAlgo).height = 2 ∧
    (MerkleTree.new [[5]] toyAlgo).nodes_count = 3 ∧
    (MerkleTree.new [[5]] toyAlgo).get_root
      = get_pair_hash (get_hash [5] toyAlgo) (get_hash [5] toyAlgo) toyAlgo :=
  ⟨toyAlgo_WF, C6_single_leaf toyAlgo toyAlgo_WF [5]⟩

/-- C7: the tree over the empty input satisfies `is_empty`, has height 0,
zero nodes, zero data size and an empty root; moreover for every input the
root is empty iff the tree has zero leaves, and otherwise it is the final
`output_len` bytes of the digest array. -/
theorem C7_empty_tree (algo : Algorithm) (hWF : algo.WF)
    (values : List (List Nat)) (use_map : Bool) :
    (values = [] →
      (MerkleTree.new_with_flag values algo use_map).is_empty = true ∧
      (MerkleTree.new_with_flag values algo use_map).height = 0 ∧
      (MerkleTree.new_with_flag values algo use_map).nodes_count = 0 ∧
      (MerkleTree.new_with_flag values algo use_map).data_size = 0 ∧
      (MerkleTree.new_with_flag values algo use_map).get_root = []) ∧
    ((MerkleTree.new_with_flag values algo use_map).get_root = []
      ↔ (MerkleTree.new_with_flag values algo use_map).leafs_count = 0) ∧
    ((MerkleTree.new_with_flag values algo use_map).leafs_count ≠ 0 →
      (MerkleTree.new_with_flag values algo use_map).get_root
        = (MerkleTree.new_with_flag values algo use_map).array.drop
            ((MerkleTree.new_with_flag values algo use_map).array.length
              - algo.output_len)) := by
  have hcnt : (MerkleTree.new_with_flag values algo use_map).leafs_count
      = values.length := rfl
  have hroot_ne : values ≠ [] →
      (MerkleTree.new_with_flag values algo use_map).get_root ≠ []
        ∧ (MerkleTree.new_with_flag values algo use_map).get_root
            = (MerkleTree.new_with_flag values algo use_map).array.drop
              ((MerkleTree.new_with_flag values algo use_map).array.length
                - algo.output_len) := by
    intro hne
    have hr := root_of_chunks algo hWF values use_map hne
    constructor
    · rw [hr]
      set cs := leaf_hashes values algo
        ++ (upperH algo (leaf_hashes values algo)).1 with hcs
    
      have hcsne : cs ≠ [] := by
        apply List.length_pos.1
        rw [hcs]
        simp only [List.length_append, leaf_hashes, List.length_map]
        have : 0 < values.length := List.length_pos.2 hne
        omega
      have hmem : cs.getLastD [] ∈ cs := getLastD_mem hcsne []
      have hlen : (cs.getLastD []).length = algo.output_len :=
        tree_chunks algo hWF values _ hmem
      intro hnil
      rw [hnil] at hlen
      simp at hlen
      have hL := hWF.1
      omega
    · have hflen : (MerkleTree.new_with_flag values algo use_map).array.length
          = (leaf_hashes values algo
              ++ (upperH algo (leaf_hashes values algo)).1).length
            * algo.output_len := by
        rw [new_with_flag_array algo hWF]
        exact flatten_length_chunks (tree_chunks algo hWF values)
      have hnc : (MerkleTree.new_with_flag values algo use_map).nodes_count
          ≠ 0 := by
        rw [MerkleTree.nodes_count, show
          (MerkleTree.new_with_flag values algo use_map).algo = algo from rfl,
          hflen, Nat.mul_div_cancel _ hWF.1]
        simp only [List.length_append, leaf_hashes, List.length_map]
        have : 0 < values.length := List.length_pos.2 hne
        omega
      rw [MerkleTree.get_root,
        if_neg (by simp [MerkleTree.is_empty, hnc]), show
        (MerkleTree.new_with_flag values algo use_map).algo = algo from rfl]
  refine ⟨?_, ?_, ?_⟩
  · intro hnil
    subst hnil
    obtain ⟨harr, hh⟩ := new_with_flag_empty algo hWF use_map
    refine ⟨?_, hh, ?_, ?_, ?_⟩
    · simp [MerkleTree.is_empty, MerkleTree.nodes_count, harr]
    · simp [MerkleTree.nodes_count, harr]
    · simp [MerkleTree.data_size, harr]
    · simp [MerkleTree.get_root, MerkleTree.is_empty,
        MerkleTree.nodes_count, harr]
  · constructor
    · intro hroot
      rw [hcnt]
      by_contra hne0
      have hne : values ≠ [] := by
        intro h
        rw [h] at hne0
        simp at hne0
      exact (hroot_ne hne).1 hroot
    · intro h0
      rw [hcnt] at h0
      have hnil : values = [] := List.length_eq_zero.1 h0
      subst hnil
      obtain ⟨harr, _⟩ := new_with_flag_empty algo hWF use_map
      simp [MerkleTree.get_root, MerkleTree.is_empty,
        MerkleTree.nodes_count, harr]
  · intro hne0
    rw [hcnt] at hne0
    have hne : values ≠ [] := by
      intro h
      rw [h] at hne0
      simp at hne0
    exact (hroot_ne hne).2

theorem C7_witness :
    toyAlgo.WF ∧
    ((([] : List (List Nat)) = []) →
      (MerkleTree.new_with_flag [] toyAlgo false).is_empty = true ∧
      (MerkleTree.new_with_flag [] toyAlgo false).height = 0 ∧
      (MerkleTree.new_with_flag [] toyAlgo false).nodes_count = 0 ∧
      (MerkleTree.new_with_flag [] toyAlgo false).data_size = 0 ∧
      (MerkleTree.new_with_flag [] toyAlgo false).get_root = []) ∧
    ((MerkleTree.new_with_flag [] toyAlgo false).get_root = []
      ↔ (MerkleTree.new_with_flag [] toyAlgo false).leafs_count = 0) :=
  ⟨toyAlgo_WF, (C7_empty_tree toyAlgo toyAlgo_WF [] false).1,
    (C7_empty_tree toyAlgo toyAlgo_WF [] false).2.1⟩

/-- C5: for every four-element leaf list, the tree built over the list and
the tree built over its full reversal have identical roots. -/
theorem C5_reverse_four_same_root (algo : Algorithm) (hWF : algo.WF)
    (a b c d : List Nat) :
    (MerkleTree.new [a, b, c, d] algo).get_root
      = (MerkleTree.new [d, c, b, a] algo).get_root := by
  rw [MerkleTree.new, MerkleTree.new, root_four algo hWF a b c d false,
    root_four algo hWF d c b a false]
  rw [get_pair_hash_comm algo (get_hash d algo) (get_hash c algo)
      (hWF.2 d) (hWF.2 c),
    get_pair_hash_comm algo (get_hash b algo) (get_hash a algo)
      (hWF.2 b) (hWF.2 a),
    get_pair_hash_comm algo _ _
      (get_pair_hash_length hWF (get_hash a algo) (get_hash b algo))
      (get_pair_hash_length hWF (get_hash c algo) (get_hash d algo))]

theorem C5_witness :
    toyAlgo.WF ∧
    (MerkleTree.new [[1], [2], [3], [4]] toyAlgo).get_root
      = (MerkleTree.new [[4], [3], [2], [1]] toyAlgo).get_root :=
  ⟨toyAlgo_WF, C5_reverse_four_same_root toyAlgo toyAlgo_WF [1] [2] [3] [4]⟩

/-- C9: for every non-empty tree and every value present in it, the proof
returned by `build_proof` consists of exactly `height` digest chunks: its
byte length is `height * output_len`. -/
theorem C9_proof_length (algo : Algorithm) (hWF : algo.WF)
    (values : List (List Nat)) (use_map : Bool) (v : List Nat)
    (hne : values ≠ []) (hv : v ∈ values) :
    ∃ p, (MerkleTree.new_with_flag values algo use_map).build_proof v
        = some p
      ∧ p.length
        = (MerkleTree.new_with_flag values algo use_map).height
          * algo.output_len := by
  obtain ⟨i, hfind, hi⟩ := find_item_found algo hWF values use_map hv
  obtain ⟨p, hp, hlen, _⟩ :=
    build_proof_validate algo hWF values use_map v i hfind hi
  exact ⟨p, hp, hlen⟩

theorem C9_witness :
    toyAlgo.WF ∧ ([[0], [1], [2]] : List (List Nat)) ≠ [] ∧
    [1] ∈ [[0], [1], [2]] ∧
    ∃ p, (MerkleTree.new_with_flag [[0], [1], [2]] toyAlgo true).build_proof
          [1] = some p
      ∧ p.length
        = (MerkleTree.new_with_flag [[0], [1], [2]] toyAlgo true).height
          * toyAlgo.output_len :=
  ⟨toyAlgo_WF, by decide, by decide,
    C9_proof_length toyAlgo toyAlgo_WF [[0], [1], [2]] true [1]
      (by decide) (by decide)⟩

/-- C3: for every input list of at most seven values whose hashes do not
collide, in both lookup modes: a value present in the input yields
`some proof` with `validate proof = some true`, and a value not present
yields `none`. -/
theorem C3_roundtrip (algo : Algorithm) (hWF : algo.WF)
    (values : List (List Nat)) (hsize : values.length ≤ 7) (use_map : Bool)
    (v : List Nat)
    (hcoll : ∀ a ∈ v :: values, ∀ b ∈ v :: values,
      get_hash a algo = get_hash b algo → a = b) :
    (v ∈ values →
      ∃ p, (MerkleTree.new_with_flag values algo use_map).build_proof v
          = some p
        ∧ (MerkleTree.new_with_flag values algo use_map).validate p
          = some true) ∧
    (v ∉ values →
      (MerkleTree.new_with_flag values algo use_map).build_proof v
        = none) := by
  constructor
  · intro hv
    obtain ⟨i, hfind, hi⟩ := find_item_found algo hWF values use_map hv
    obtain ⟨p, hp, _, hval⟩ :=
      build_proof_validate algo hWF values use_map v i hfind hi
    exact ⟨p, hp, hval⟩
  · intro hv
    apply build_proof_none
    show (MerkleTree.new_with_flag values algo use_map).find_item
      (get_hash v algo) = none
    apply find_item_none_of_absent algo hWF
    intro w hw he
    have hwv : w = v := hcoll w (by simp [hw]) v (by simp) he
    rw [hwv] at hw
    exact hv hw

theorem C3_witness :
    toyAlgo.WF ∧ ([[0], [1], [2]] : List (List Nat)).length ≤ 7 ∧
    (∀ a ∈ [1] :: [[0], [1], [2]], ∀ b ∈ [1] :: [[0], [1], [2]],
      get_hash a toyAlgo = get_hash b toyAlgo → a = b) ∧
    (([1] ∈ [[0], [1], [2]] : Prop) →
      ∃ p, (MerkleTree.new_with_flag [[0], [1], [2]] toyAlgo false).build_proof
            [1] = some p
        ∧ (MerkleTree.new_with_flag [[0], [1], [2]] toyAlgo false).validate p
          = some true) ∧
    (([1] ∉ [[0], [1], [2]] : Prop) →
      (MerkleTree.new_with_flag [[0], [1], [2]] toyAlgo false).build_proof [1]
        = none) :=
  ⟨toyAlgo_WF, by decide, by decide,
    (C3_roundtrip toyAlgo toyAlgo_WF [[0], [1], [2]] (by decide) false [1]
      (by decide)).1,
    (C3_roundtrip toyAlgo toyAlgo_WF [[0], [1], [2]] (by decide) false [1]
      (by decide)).2⟩

theorem build_proof_congr (t1 t2 : MerkleTree) (harr : t1.array = t2.array)
    (halgo : t1.algo = t2.algo) (hic : t1.items_count = t2.items_count)
    (hfind : ∀ h, t1.find_item h = t2.find_item h) :
    ∀ v, t1.build_proof v = t2.build_proof v := by
  intro v
  rw [MerkleTree.build_proof, MerkleTree.build_proof, halgo,
    hfind (get_hash v t2.algo)]
  cases hres : t2.find_item (get_hash v t2.algo) with
  | none => rfl
  | some i =>
    dsimp only
    rw [harr, hic, add_level_congr t1 t2 harr halgo]

/-- C2 (amended): for every input and every algorithm the map-backed tree
and the plain tree always have bit-identical digest arrays, heights and
leaf counts (no hypothesis needed: the array construction never consults
the map); and when the leaf digests are pairwise distinct, `build_proof`
also returns identical results on both trees for every candidate value. -/
theorem C2_modes_equal (algo : Algorithm) (values : List (List Nat)) :
    (MerkleTree.new_with_map values algo).array
        = (MerkleTree.new values algo).array ∧
    (MerkleTree.new_with_map values algo).height
        = (MerkleTree.new values algo).height ∧
    (MerkleTree.new_with_map values algo).items_count
        = (MerkleTree.new values algo).items_count ∧
    (algo.WF → (leaf_hashes values algo).Nodup →
      ∀ v, (MerkleTree.new_with_map values algo).build_proof v
        = (MerkleTree.new values algo).build_proof v) := by
  have harr : (MerkleTree.new_with_map values algo).array
      = (MerkleTree.new values algo).array := by
    rw [MerkleTree.new_with_map, MerkleTree.new]
    unfold MerkleTree.new_with_flag build_tree
    simp only [build_leaves_fst]
  have hh : (MerkleTree.new_with_map values algo).height
      = (MerkleTree.new values algo).height := by
    rw [MerkleTree.new_with_map, MerkleTree.new]
    unfold MerkleTree.new_with_flag build_tree
    simp only [build_leaves_fst]
  refine ⟨harr, hh, rfl, ?_⟩
  intro hWF hnd
  exact build_proof_congr _ _ harr rfl rfl
    (fun h => find_item_modes_eq algo hWF values hnd h)

theorem C2_witness :
    toyAlgo.WF ∧ (leaf_hashes [[0], [1], [2]] toyAlgo).Nodup ∧
    (MerkleTree.new_with_map [[0], [1], [2]] toyAlgo).array
        = (MerkleTree.new [[0], [1], [2]] toyAlgo).array ∧
    (MerkleTree.new_with_map [[0], [1], [2]] toyAlgo).height
        = (MerkleTree.new [[0], [1], [2]] toyAlgo).height ∧
    ∀ v, (MerkleTree.new_with_map [[0], [1], [2]] toyAlgo).build_proof v
        = (MerkleTree.new [[0], [1], [2]] toyAlgo).build_proof v :=
  ⟨toyAlgo_WF, by decide,
    (C2_modes_equal toyAlgo [[0], [1], [2]]).1,
    (C2_modes_equal toyAlgo [[0], [1], [2]]).2.1,
    (C2_modes_equal toyAlgo [[0], [1], [2]]).2.2.2 toyAlgo_WF (by decide)⟩

/-- C2 (counterexample): with the duplicate-containing input
`[[0], [1], [0]]`, the map-backed tree and the plain tree return different
proofs for the value `[0]`: the map resolves the leaf to its last
occurrence, the linear scan to its first, and the sibling chunks differ. -/
theorem C2_counterexample :
    ¬ ((MerkleTree.new_with_map [[0], [1], [0]] toyAlgo).build_proof [0]
      = (MerkleTree.new [[0], [1], [0]] toyAlgo).build_proof [0]) := by
  have harrL : (MerkleTree.new [[0], [1], [0]] toyAlgo).array
      = [100, 101, 100, 100, 254, 253, 105] := by
    rw [MerkleTree.new, new_with_flag_array toyAlgo toyAlgo_WF]
    norm_num [leaf_hashes, get_hash, toyAlgo, upperH_three, get_pair_hash,
      pair_swap_loop]
  have harrM : (MerkleTree.new_with_map [[0], [1], [0]] toyAlgo).array
      = [100, 101, 100, 100, 254, 253, 105] := by
    rw [MerkleTree.new_with_map, new_with_flag_array toyAlgo toyAlgo_WF]
    norm_num [leaf_hashes, get_hash, toyAlgo, upperH_three, get_pair_hash,
      pair_swap_loop]
  have hcntL : (MerkleTree.new [[0], [1], [0]] toyAlgo).items_count = 3 := rfl
  have hcntM : (MerkleTree.new_with_map [[0], [1], [0]] toyAlgo).items_count
      = 3 := rfl
  have houtL : (MerkleTree.new [[0], [1], [0]] toyAlgo).algo.output_len
      = 1 := rfl
  have houtM : (MerkleTree.new_with_map
      [[0], [1], [0]] toyAlgo).algo.output_len = 1 := rfl
  have hh100 : get_hash [0] (MerkleTree.new [[0], [1], [0]] toyAlgo).algo
      = [100] := rfl
  have hfindL : (MerkleTree.new [[0], [1], [0]] toyAlgo).find_item
      (get_hash [0] (MerkleTree.new [[0], [1], [0]] toyAlgo).algo)
      = some 0 := by
    rw [hh100, MerkleTree.find_item, MerkleTree.new, new_with_flag_map_false]
    dsimp only
    rw [← MerkleTree.new, MerkleTree.find_item_from]
    norm_num [harrL, hcntL, houtL, slice]
  have hfindM : (MerkleTree.new_with_map [[0], [1], [0]] toyAlgo).find_item
      (get_hash [0] (MerkleTree.new_with_map [[0], [1], [0]] toyAlgo).algo)
      = some 2 := by
    rw [MerkleTree.find_item, MerkleTree.new_with_map,
      new_with_flag_map_true]
    dsimp only
    decide
  have hbpL : (MerkleTree.new [[0], [1], [0]] toyAlgo).build_proof [0]
      = some [100, 101, 253] := by
    rw [MerkleTree.build_proof, hfindL]
    dsimp only
    rw [MerkleTree.add_level]
    norm_num [harrL, hcntL, houtL, slice, calculate_relatives]
    rw [MerkleTree.add_level]
    norm_num [harrL, houtL, slice, calculate_relatives]
  have hbpM : (MerkleTree.new_with_map [[0], [1], [0]] toyAlgo).build_proof
      [0] = some [100, 100, 254] := by
    rw [MerkleTree.build_proof, hfindM]
    dsimp only
    rw [MerkleTree.add_level]
    norm_num [harrM, hcntM, houtM, slice, calculate_relatives]
    rw [MerkleTree.add_level]
    norm_num [harrM, houtM, slice, calculate_relatives]
  rw [hbpL, hbpM]
  simp

end VMT
